import Mathlib

/-!
A verification development for the debug-engine server
(`program/server/server.go`): a shallow embedding of the server's data
model and request handlers, together with theorems about breakpoint
transparency, program-counter rewind, breakpoint patching, duplicate
rejection, error behaviour, clone-event filtering, single-stepping over
an active breakpoint, read-only queries, file-descriptor allocation and
the frame walker.

Modelling conventions:
* Debuggee memory is a total function `Nat → Nat` (byte at each address);
  `ptracePoke`/`ptracePeek` become `pokeBytes`/`peekBytes`.
* Machine integers are `Nat`/`Int` with explicit `% 2^64` where the Go
  code relies on `uint64` wrap-around.
* The kernel's nondeterminism (results of `wait`, the register file at a
  stop, process creation) is supplied by explicit oracle values.
* Every ptrace interaction is recorded in a trace of `TraceOp`s so that
  ordering properties can be stated.
* The debuggee is assumed not to modify its own code memory: only the
  server's pokes change memory in the model.
-/

/-- 2^64, the modulus for Go `uint64` arithmetic. -/
def u64Mod : Nat := 2 ^ 64

/-- Go `uint64` subtraction `a - b` (wrap-around). -/
def u64sub (a b : Nat) : Nat := (a % u64Mod + (u64Mod - b % u64Mod)) % u64Mod

/-- Go `uint64` addition `a + b` (wrap-around). -/
def u64add (a b : Nat) : Nat := (a + b) % u64Mod

/-- Debuggee memory: byte value at each address. -/
def Mem : Type := Nat → Nat

/-- Write one byte at address `a`. -/
def writeByte (m : Mem) (a v : Nat) : Mem :=
  fun x => if x = a then v else m x

/-- `ptracePoke`: write the byte list `vs` starting at address `a`. -/
def pokeBytes (m : Mem) (a : Nat) : List Nat → Mem
  | [] => m
  | v :: vs => pokeBytes (writeByte m a v) (a + 1) vs

/-- `ptracePeek`: read `n` bytes starting at address `a`. -/
def peekBytes (m : Mem) (a : Nat) : Nat → List Nat
  | 0 => []
  | n + 1 => m a :: peekBytes m (a + 1) n

/-- Modelled from the spec: the architecture descriptor from the `arch`
package (not under `src/`). Per §3 of the spec: `pointer_size`,
`int_size`, `breakpoint_instr` (a byte array of length
`max_breakpoint_size`, of which the first `breakpoint_size` bytes are
the ISA's breakpoint instruction), `max_breakpoint_size` (upper bound on
the instruction length across supported ISAs, the size of the
`origInstr` array in `server.go`), and an integer decoder `int`. -/
structure Arch where
  pointerSize : Nat
  intSize : Nat
  breakpointSize : Nat
  maxBreakpointSize : Nat
  breakpointInstr : List Nat
  int : List Nat → Int

/-- A wellformed architecture descriptor: the breakpoint instruction
array has length `maxBreakpointSize` (it is a Go array of that size) and
the per-ISA instruction fits inside it. -/
def Arch.WF (ar : Arch) : Prop :=
  ar.breakpointInstr.length = ar.maxBreakpointSize ∧
    ar.breakpointSize ≤ ar.maxBreakpointSize

/-- Modelled from the spec: the slice of `syscall.PtraceRegs` the server
reads and writes — the program counter `Rip` and stack pointer `Rsp`. -/
structure PtraceRegs where
  rip : Nat
  rsp : Nat
deriving DecidableEq

/-- `type breakpoint struct { pc uint64; origInstr [arch.MaxBreakpointSize]byte }`. -/
structure breakpoint where
  pc : Nat
  origInstr : List Nat
deriving DecidableEq

/-- A slot of the auxiliary file table:
`type file struct { mode string; index int; f program.File }`
(the `program.File` handle is modelled as an opaque numeric id). -/
structure file where
  mode : String
  index : Nat
  f : Nat
deriving DecidableEq

/-- The mutable server state of `type Server struct` in `server.go`
(the immutable `executable`/`dwarfData`/`table` fields and the trace
channel are modelled separately; `arch` is kept as a field). -/
structure Server where
  arch : Arch
  proc : Option Nat
  procIsUp : Bool
  stoppedPid : Nat
  stoppedRegs : PtraceRegs
  breakpoints : List (Nat × breakpoint)
  files : List (Option file)

/-- Lookup in the breakpoint table (Go `s.breakpoints[pc]`); the table
is an association list with unique keys, insertion at the tail. -/
def bpLookup : List (Nat × breakpoint) → Nat → Option breakpoint
  | [], _ => none
  | (p, b) :: t, pc => if p = pc then some b else bpLookup t pc

/-- The errors surfaced by the handlers (Go returns `error` values built
with `fmt.Errorf`; they are modelled as tags). -/
inductive Err where
  | noProcess
  | startProcessFailed
  | waitFailed
  | setOptionsFailed
  | duplicateBreakpoint (pc : Nat)
  | badExpression (expr : String)
  | notAnAddress (expr : String)
  | noLineData (expr : String)
  | lookupFailed
  | peekFailed
  | badMode (mode : String)
  | openFailed
  | unimplementedCount
  | entryForPCFailed
  | dwarfReadFailed
  | formalParameterHasChildren
  | noLocation
deriving DecidableEq

/-- One ptrace interaction, as recorded in the operation trace. -/
inductive TraceOp where
  | singleStepOp (pid : Nat)
  | contOp (pid : Nat) (sig : Nat)
  | waitOp (pid : Int)
  | pokeOp (pid : Nat) (addr : Nat) (data : List Nat)
  | peekOp (pid : Nat) (addr : Nat) (len : Nat)
  | getRegsOp (pid : Nat)
  | setRegsOp (pid : Nat) (regs : PtraceRegs)
  | setOptionsOp (pid : Nat) (opts : Nat)
deriving DecidableEq

/-- `syscall.SIGTRAP`. -/
def SIGTRAP : Nat := 5

/-- `syscall.PTRACE_EVENT_CLONE`. -/
def PTRACE_EVENT_CLONE : Int := 3

/-- `syscall.PTRACE_O_TRACECLONE`. -/
def PTRACE_O_TRACECLONE : Nat := 8

/-- Modelled from the spec: what one `s.wait` call observed by the
kernel yields — the relevant projections of `syscall.WaitStatus`. -/
structure WaitStatus where
  stopSignal : Nat
  trapCause : Int
deriving DecidableEq

/-- One oracle event for a `wait` call inside `waitForTrap`: either the
kernel reports an error, or task `wpid` stopped with the given status. -/
inductive WEvent where
  | waitErr
  | stopEv (wpid : Nat) (status : WaitStatus)
deriving DecidableEq

/-- Outcome of `waitForTrap`: the returned task id together with the
unconsumed oracle events, a kernel wait failure, or exhaustion of the
oracle (the Go loop would still be blocked in `wait`). -/
inductive WaitRes where
  | trapped (wpid : Nat) (rest : List WEvent)
  | waitFailed
  | exhausted
deriving DecidableEq

/-- `func (s *Server) waitForTrap(pid int) (wpid int, err error)`:
loop on `wait`; return the signaling task on a SIGTRAP whose cause is
not a clone event; otherwise continue that task with signal 0 and keep
waiting; fail on a kernel wait error. -/
def waitForTrap (pid : Int) : List WEvent → List TraceOp × WaitRes
  | [] => ([], WaitRes.exhausted)
  | WEvent.waitErr :: _ => ([TraceOp.waitOp pid], WaitRes.waitFailed)
  | WEvent.stopEv w st :: rest =>
    if st.stopSignal = SIGTRAP ∧ st.trapCause ≠ PTRACE_EVENT_CLONE then
      ([TraceOp.waitOp pid], WaitRes.trapped w rest)
    else
      let (tr, r) := waitForTrap pid rest
      (TraceOp.waitOp pid :: TraceOp.contOp w 0 :: tr, r)

/-- `func (s *Server) setBreakpoints() error`: for every table entry,
poke `s.arch.BreakpointInstr[:s.arch.BreakpointSize]` at the entry's pc
(pokes are modelled as always succeeding); returns the new memory and
the emitted operations. -/
def setBreakpoints (ar : Arch) (pid : Nat) :
    List (Nat × breakpoint) → Mem → Mem × List TraceOp
  | [], m => (m, [])
  | (pc, _) :: t, m =>
    let data := ar.breakpointInstr.take ar.breakpointSize
    let res := setBreakpoints ar pid t (pokeBytes m pc data)
    (res.1, TraceOp.pokeOp pid pc data :: res.2)

/-- `func (s *Server) liftBreakpoints() error`: for every table entry,
poke `breakpoint.origInstr[:s.arch.BreakpointSize]` back at the entry's
pc. -/
def liftBreakpoints (ar : Arch) (pid : Nat) :
    List (Nat × breakpoint) → Mem → Mem × List TraceOp
  | [], m => (m, [])
  | (pc, b) :: t, m =>
    let data := b.origInstr.take ar.breakpointSize
    let res := liftBreakpoints ar pid t (pokeBytes m pc data)
    (res.1, TraceOp.pokeOp pid pc data :: res.2)

/-- Go `strings.HasPrefix p s` test (argument order: prefix pattern
first), computed on the character lists. -/
def goHasPre (p s : String) : Bool := p.data.isPrefixOf s.data

/-- Go `expr[n:]` on a string. -/
def goDrop (n : Nat) (s : String) : String := String.mk (s.data.drop n)

/-- Go `len(expr) > 0 && '0' <= expr[0] && expr[0] <= '9'`. -/
def goFirstDigit (s : String) : Bool :=
  match s.data with
  | [] => false
  | c :: _ => decide ('0' ≤ c) && decide (c ≤ '9')

/-- Go `fmt.Sprintf("%#x", addr)`. -/
def hexFormat (n : Nat) : String := "0x" ++ String.mk (Nat.toDigits 16 n)

/-- The external symbol/line resolvers used by `eval` (the `gosym`
table, the regexp engine and `strconv.ParseUint`, all outside the
repository): supplied as oracle functions. -/
structure Resolver where
  lookupRE : String → Except Err (List String)
  lookupSym : String → Except Err Nat
  lookupSource : Nat → Option (String × Nat)
  lookupPC : Nat → Except Err String
  parseUint : String → Except Err Nat

/-- `func (s *Server) eval(expr string) ([]string, error)`: the
expression grammar dispatch (`re:`, `sym:`, `src:`, leading digit). -/
def eval (R : Resolver) (expr : String) : Except Err (List String) :=
  if goHasPre "re:" expr then R.lookupRE (goDrop 3 expr)
  else if goHasPre "sym:" expr then
    match R.lookupSym (goDrop 4 expr) with
    | Except.error e => Except.error e
    | Except.ok addr => Except.ok [hexFormat addr]
  else if goHasPre "src:" expr then
    match R.parseUint (goDrop 4 expr) with
    | Except.error e => Except.error e
    | Except.ok addr =>
      match R.lookupSource addr with
      | none => Except.error (Err.noLineData expr)
      | some (f, l) => Except.ok [f ++ ":" ++ toString l]
  else if goFirstDigit expr then
    match R.parseUint expr with
    | Except.error e => Except.error e
    | Except.ok addr =>
      match R.lookupPC addr with
      | Except.error e => Except.error e
      | Except.ok funcName => Except.ok [funcName]
  else Except.error (Err.badExpression expr)

/-- `func (s *Server) evalAddress(expr string) (uint64, error)`: try a
symbol lookup, then a numeric parse. -/
def evalAddress (R : Resolver) (expr : String) : Except Err Nat :=
  match R.lookupSym expr with
  | Except.ok addr => Except.ok addr
  | Except.error _ =>
    match R.parseUint expr with
    | Except.ok addr => Except.ok addr
    | Except.error _ => Except.error (Err.notAnAddress expr)

/-- The debuggee-side world: its memory, its register file, and whether
the (main) task is currently in a trace stop. -/
structure World where
  mem : Mem
  regs : PtraceRegs
  stopped : Bool

/-- The record captured for a new breakpoint: peek
`arch.BreakpointSize` original bytes at `pc` into the zero-initialised
`origInstr` array of size `arch.MaxBreakpointSize`. -/
def bpOrig (ar : Arch) (m : Mem) (pc : Nat) : breakpoint :=
  { pc := pc
    origInstr :=
      peekBytes m pc ar.breakpointSize ++
        List.replicate (ar.maxBreakpointSize - ar.breakpointSize) 0 }

/-- The loop body of `Server.Breakpoint`: resolve each address, reject
duplicates, peek the original bytes and insert. Mutations made before a
failing address persist (the Go loop assigns into `s.breakpoints` as it
goes). `canPeek` is false when there is no trace-stopped process, in
which case `ptracePeek` fails. -/
def breakpointLoop (ar : Arch) (m : Mem) (canPeek : Bool) (R : Resolver) :
    List String → List (Nat × breakpoint) → List (Nat × breakpoint) × Option Err
  | [], bps => (bps, none)
  | a :: rest, bps =>
    match evalAddress R a with
    | Except.error e => (bps, some e)
    | Except.ok pc =>
      if (bpLookup bps pc).isSome then (bps, some (Err.duplicateBreakpoint pc))
      else if canPeek then
        breakpointLoop ar m canPeek R rest (bps ++ [(pc, bpOrig ar m pc)])
      else (bps, some Err.peekFailed)

/-- `func (s *Server) Breakpoint(req, resp) error`. -/
def Server.Breakpoint (s : Server) (w : World) (R : Resolver) (addrExpr : String) :
    Server × Option Err :=
  match eval R addrExpr with
  | Except.error e => (s, some e)
  | Except.ok addrs =>
    let res := breakpointLoop s.arch w.mem (s.proc.isSome && w.stopped) R
      addrs s.breakpoints
    ({ s with breakpoints := res.1 }, res.2)

/-- `func (s *Server) Run(req, resp) error`: kill and reset any prior
process, then fork/exec under trace (`startRes` is the oracle for
`startProcess`). -/
def Server.Run (s : Server) (startRes : Except Unit Nat) : Server × Option Err :=
  let s1 := if s.proc.isSome then
      { s with proc := none, procIsUp := false, stoppedPid := 0,
               stoppedRegs := { rip := 0, rsp := 0 } }
    else s
  match startRes with
  | Except.error _ => (s1, some Err.startProcessFailed)
  | Except.ok pid => ({ s1 with proc := some pid, stoppedPid := pid }, none)

/-- The `resp.Status` value returned by `Resume`. -/
structure Status where
  pc : Nat
  sp : Nat
deriving DecidableEq

/-- Oracle for one `Resume` call: the stream of `wait` outcomes, the
register file the debuggee has at the final stop, and whether
`ptraceSetOptions` fails. -/
structure ResumeOracle where
  events : List WEvent
  regsAtStop : PtraceRegs
  setOptionsFails : Bool

/-- The full observable outcome of one `Resume` call: the server state,
the world, the code memory while the debuggee was running (between the
`continue` and the stop-producing `wait`), the operation trace, and the
handler result (`none` when the handler never returns because the
oracle ran out of `wait` events). -/
structure ResumeOut where
  s : Server
  w : World
  runningMem : Option Mem
  trace : List TraceOp
  result : Option (Except Err Status)

/-- Outcome of the first phase of `Resume` (initial-wait/set-options on
the first call, single-step recovery when stopped on a breakpoint). -/
inductive Phase1Res where
  | abort (out : ResumeOut)
  | go (s1 : Server) (evs : List WEvent) (tr : List TraceOp)

/-- The first phase of `Resume`: on the first call, mark the process up
(before waiting), wait for the exec trap and enable clone tracing;
otherwise, when the stopped pc sits on a breakpoint, single-step and
wait for its trap. -/
def resumePhase1 (s : Server) (w : World) (o : ResumeOracle) : Phase1Res :=
  if s.procIsUp = false then
    let s1 := { s with procIsUp := true }
    let wt := waitForTrap (Int.ofNat s.stoppedPid) o.events
    match wt.2 with
    | WaitRes.waitFailed =>
      Phase1Res.abort ⟨s1, { w with stopped := false }, none, wt.1,
        some (Except.error Err.waitFailed)⟩
    | WaitRes.exhausted =>
      Phase1Res.abort ⟨s1, { w with stopped := false }, none, wt.1, none⟩
    | WaitRes.trapped _ rest =>
      if o.setOptionsFails then
        Phase1Res.abort ⟨s1, w, none,
          wt.1 ++ [TraceOp.setOptionsOp s.stoppedPid PTRACE_O_TRACECLONE],
          some (Except.error Err.setOptionsFailed)⟩
      else
        Phase1Res.go s1 rest
          (wt.1 ++ [TraceOp.setOptionsOp s.stoppedPid PTRACE_O_TRACECLONE])
  else if (bpLookup s.breakpoints s.stoppedRegs.rip).isSome then
    let wt := waitForTrap (Int.ofNat s.stoppedPid) o.events
    match wt.2 with
    | WaitRes.waitFailed =>
      Phase1Res.abort ⟨s, { w with stopped := false }, none,
        TraceOp.singleStepOp s.stoppedPid :: wt.1,
        some (Except.error Err.waitFailed)⟩
    | WaitRes.exhausted =>
      Phase1Res.abort ⟨s, { w with stopped := false }, none,
        TraceOp.singleStepOp s.stoppedPid :: wt.1, none⟩
    | WaitRes.trapped _ rest =>
      Phase1Res.go s rest (TraceOp.singleStepOp s.stoppedPid :: wt.1)
  else
    Phase1Res.go s o.events []

/-- The second phase of `Resume`: install all breakpoints, continue,
wait for any task's trap, lift all breakpoints, read the registers,
rewind the program counter by `arch.BreakpointSize` and write the
registers back. -/
def resumeRest (s1 : Server) (w : World) (o : ResumeOracle)
    (evs : List WEvent) (tr1 : List TraceOp) : ResumeOut :=
  let ar := s1.arch
  let set := setBreakpoints ar s1.stoppedPid s1.breakpoints w.mem
  let m1 := set.1
  let tr2 := tr1 ++ set.2 ++ [TraceOp.contOp s1.stoppedPid 0]
  let w1 : World := { mem := m1, regs := w.regs, stopped := false }
  let wt := waitForTrap (-1) evs
  let tr3 := tr2 ++ wt.1
  match wt.2 with
  | WaitRes.waitFailed =>
    ⟨s1, w1, some m1, tr3, some (Except.error Err.waitFailed)⟩
  | WaitRes.exhausted => ⟨s1, w1, some m1, tr3, none⟩
  | WaitRes.trapped wpid _ =>
    let s2 := { s1 with stoppedPid := wpid }
    let lift := liftBreakpoints ar s2.stoppedPid s1.breakpoints m1
    let m2 := lift.1
    let newRegs : PtraceRegs :=
      { rip := u64sub o.regsAtStop.rip ar.breakpointSize, rsp := o.regsAtStop.rsp }
    let s3 := { s2 with stoppedRegs := newRegs }
    let w2 : World := { mem := m2, regs := newRegs, stopped := true }
    ⟨s3, w2, some m1,
      tr3 ++ lift.2 ++ [TraceOp.getRegsOp wpid, TraceOp.setRegsOp wpid newRegs],
      some (Except.ok { pc := newRegs.rip, sp := newRegs.rsp })⟩

/-- `func (s *Server) Resume(req, resp) error`. -/
def Server.Resume (s : Server) (w : World) (o : ResumeOracle) : ResumeOut :=
  match s.proc with
  | none => ⟨s, w, none, [], some (Except.error Err.noProcess)⟩
  | some _ =>
    match resumePhase1 s w o with
    | Phase1Res.abort out => out
    | Phase1Res.go s1 evs tr1 => resumeRest s1 w o evs tr1

/-- `func (s *Server) Eval(req, resp) error`: a pure query. -/
def Server.Eval (s : Server) (w : World) (R : Resolver) (expr : String) :
    Server × World × Except Err (List String) :=
  (s, w, eval R expr)

/-- The file-descriptor scan of `Server.Open`:
`for ; index < len(s.files) && s.files[index] != nil; index++`. -/
def findSlot : List (Option file) → Nat
  | [] => 0
  | none :: _ => 0
  | some _ :: t => findSlot t + 1

/-- `func (s *Server) Open(req, resp) error`: validate the mode, open
the host file (`osOpen` is the oracle for `os.OpenFile`), and store the
record in the lowest free slot, extending the table when full. -/
def Server.Open (s : Server) (name mode : String) (osOpen : Except Unit Nat) :
    Server × Option Err :=
  if mode = "r" ∨ mode = "w" ∨ mode = "rw" then
    match osOpen with
    | Except.error _ => (s, some Err.openFailed)
    | Except.ok h =>
      let index := findSlot s.files
      let f : file := { mode := mode, index := index, f := h }
      if index = s.files.length then
        ({ s with files := s.files ++ [some f] }, none)
      else
        ({ s with files := s.files.set index (some f) }, none)
  else (s, some (Err.badMode mode))

/-- Go `fmt.Sprintf("%#x", v)` for a signed decoded integer. -/
def intHex (i : Int) : String :=
  if i < 0 then "-0x" ++ String.mk (Nat.toDigits 16 i.natAbs)
  else "0x" ++ String.mk (Nat.toDigits 16 i.toNat)

/-- Go `uintptr(x)` of a signed 64-bit value. -/
def intToU64 (i : Int) : Nat := (i % (u64Mod : Int)).toNat

/-- One attribute of a debug-info entry, with the dynamic type the
server expects for its value (`[]uint8` for location, `string` for
name, `dwarf.Offset` for type). -/
inductive DField where
  | location (bytes : List Nat)
  | name (s : String)
  | typeRef (off : Nat)
  | otherAttr
deriving DecidableEq

/-- One debug-info entry: tag, children flag, attribute list. -/
structure DEntry where
  tag : Nat
  children : Bool
  fields : List DField
deriving DecidableEq

/-- `dwarf.TagFormalParameter` (DWARF DW_TAG_formal_parameter = 0x05). -/
def TagFormalParameter : Nat := 5

/-- What the server needs of a `dwarf.Type`: its `String()` and
`Size()`. -/
structure DType where
  str : String
  size : Int
deriving DecidableEq

/-- Modelled from the spec: the debug-info reader (`dwarf` package, not
under `src/`) — `entry_for_pc`, the entry stream the seek-and-next
cursor produces from an offset, the type-table lookup (`none` when
`dwarfData.Type` returns an error, in which case the returned interface
is nil), and the location-expression decoder `evalLocation` (defined in
the repository outside `src/`; per §4.7 it decodes a constant frame
offset). -/
structure DwarfModel where
  entryForPC : Nat → Except Unit Nat
  entriesAt : Nat → List (Except Unit DEntry)
  typeOf : Nat → Option DType
  evalLoc : List Nat → Int

/-- The attribute loop of `Server.Frames` for one formal parameter:
threads the decoded `location` and the rendered string. The result is
`none` when the Go code dereferences the nil `dwarf.Type` interface
(type lookup failed but `t.String()` is still called): the handler
panics instead of returning. -/
def framesFields (ar : Arch) (dw : DwarfModel) (m : Mem) (fp : Nat) :
    List DField → Nat → String → Option (Except Err (Nat × String))
  | [], loc, acc => some (Except.ok (loc, acc))
  | DField.location bytes :: rest, _, acc =>
    let off := dw.evalLoc bytes
    framesFields ar dw m fp rest (intToU64 ((fp : Int) + off))
      (acc ++ "(" ++ toString off ++ "(FP))")
  | DField.name n :: rest, loc, acc =>
    framesFields ar dw m fp rest loc (acc ++ " " ++ n)
  | DField.otherAttr :: rest, loc, acc => framesFields ar dw m fp rest loc acc
  | DField.typeRef off :: rest, loc, acc =>
    match dw.typeOf off with
    | none => none
    | some t =>
      let acc1 := acc ++ "[" ++ t.str ++ "]"
      if t.str = "int" ∧ t.size = (ar.intSize : Int) then
        if loc = 0 then some (Except.error Err.noLocation)
        else
          framesFields ar dw m fp rest loc
            (acc1 ++ "==" ++ intHex (ar.int (peekBytes m loc ar.intSize)))
      else framesFields ar dw m fp rest loc acc1

/-- The entry loop of `Server.Frames`: iterate entries from the seek
offset, stop at a null tag, process formal parameters. `none` models
the nil-dereference panics (type-lookup failure inside an entry, or
running off the end of the reader). -/
def framesLoop (ar : Arch) (dw : DwarfModel) (m : Mem) (fp : Nat) :
    List (Except Unit DEntry) → String → Option (Except Err String)
  | [], _ => none
  | Except.error _ :: _, _ => some (Except.error Err.dwarfReadFailed)
  | Except.ok e :: rest, acc =>
    if e.tag = 0 then some (Except.ok acc)
    else if e.tag ≠ TagFormalParameter then framesLoop ar dw m fp rest acc
    else if e.children then some (Except.error Err.formalParameterHasChildren)
    else
      match framesFields ar dw m fp e.fields 0 acc with
      | none => none
      | some (Except.error er) => some (Except.error er)
      | some (Except.ok (_, acc1)) => framesLoop ar dw m fp rest acc1

/-- `func (s *Server) Frames(req, resp) error`: only `Count == 1` is
implemented; read the registers, compute `fp = rsp + pointerSize`, find
the entry for the current pc and walk its formal parameters. The result
is `none` when the Go code would panic. -/
def Server.Frames (s : Server) (w : World) (dw : DwarfModel) (count : Nat) :
    Server × World × Option (Except Err (List String)) :=
  if count ≠ 1 then (s, w, some (Except.error Err.unimplementedCount))
  else
    let fp := u64add w.regs.rsp s.arch.pointerSize
    match dw.entryForPC w.regs.rip with
    | Except.error _ => (s, w, some (Except.error Err.entryForPCFailed))
    | Except.ok off =>
      match framesLoop s.arch dw w.mem fp (dw.entriesAt off) "" with
      | none => (s, w, none)
      | some (Except.error e) => (s, w, some (Except.error e))
      | some (Except.ok fr) => (s, w, some (Except.ok [fr]))

/-- Every `typeRef` attribute in the field list resolves in the type
table. -/
def fieldsResolve (dw : DwarfModel) : List DField → Bool
  | [] => true
  | DField.typeRef off :: rest => (dw.typeOf off).isSome && fieldsResolve dw rest
  | _ :: rest => fieldsResolve dw rest

/-- Every `typeRef` attribute of every readable entry resolves. -/
def entriesResolve (dw : DwarfModel) : List (Except Unit DEntry) → Bool
  | [] => true
  | Except.error _ :: rest => entriesResolve dw rest
  | Except.ok e :: rest => fieldsResolve dw e.fields && entriesResolve dw rest

/-- The entry stream makes the loop return before running off the end:
a read error or a null tag occurs, or the stream continues. -/
def endsWell : List (Except Unit DEntry) → Bool
  | [] => false
  | Except.error _ :: _ => true
  | Except.ok e :: rest => e.tag == 0 || endsWell rest

/-- The fixed data of a debug session: the architecture selected at
load, the executable's code image (the memory of a freshly started
debuggee; the same executable gives the same image on every `Run`), and
the initial register file. -/
structure Params where
  arch : Arch
  image : Mem
  regs0 : PtraceRegs

/-- The combined engine state: server fields plus debuggee world. -/
structure EngineState where
  srv : Server
  world : World

/-- One request made to the server, bundled with the oracle values its
execution consumes. -/
inductive Call where
  | runCall (startRes : Except Unit Nat)
  | resumeCall (o : ResumeOracle)
  | breakpointCall (R : Resolver) (expr : String)
  | evalCall (R : Resolver) (expr : String)
  | framesCall (dw : DwarfModel) (count : Nat)

/-- The engine state right after `New`: no process, empty breakpoint
table, empty file table. -/
def initState (P : Params) : EngineState :=
  { srv := { arch := P.arch, proc := none, procIsUp := false, stoppedPid := 0,
             stoppedRegs := { rip := 0, rsp := 0 }, breakpoints := [], files := [] }
    world := { mem := P.image, regs := P.regs0, stopped := false } }

/-- Apply one handler call to the engine state. `none` means the
handler never returned (the tracer is stuck in `wait`, or the handler
panicked): no subsequent request is served. A successful `Run` gives
the debuggee a fresh copy of the executable image, stopped at entry. -/
def applyCall (P : Params) (st : EngineState) : Call → Option EngineState
  | Call.runCall startRes =>
    let r := Server.Run st.srv startRes
    match startRes with
    | Except.error _ =>
      some { srv := r.1, world := { st.world with stopped := false } }
    | Except.ok _ =>
      some { srv := r.1, world := { mem := P.image, regs := P.regs0, stopped := true } }
  | Call.resumeCall o =>
    let out := Server.Resume st.srv st.world o
    match out.result with
    | none => none
    | some _ => some { srv := out.s, world := out.w }
  | Call.breakpointCall R expr =>
    let r := Server.Breakpoint st.srv st.world R expr
    some { srv := r.1, world := st.world }
  | Call.evalCall R expr =>
    let r := Server.Eval st.srv st.world R expr
    some { srv := r.1, world := r.2.1 }
  | Call.framesCall dw count =>
    let r := Server.Frames st.srv st.world dw count
    match r.2.2 with
    | none => none
    | some _ => some { srv := r.1, world := r.2.1 }

/-- The engine state reached by serving a sequence of calls from the
initial state. -/
def reach (P : Params) (calls : List Call) : Option EngineState :=
  calls.foldl (fun acc c => acc.bind fun st => applyCall P st c) (some (initState P))

/-- Address `a` lies in the patch range of some table entry. -/
def covered (bps : List (Nat × breakpoint)) (size a : Nat) : Prop :=
  ∃ pc b, (pc, b) ∈ bps ∧ pc ≤ a ∧ a < pc + size

/-- Any two distinct breakpoint pcs are at least a patch width apart
(automatic when the breakpoint instruction is one byte, as on x86). -/
def Separated (bps : List (Nat × breakpoint)) (size : Nat) : Prop :=
  ∀ p q, p ∈ bps.map Prod.fst → q ∈ bps.map Prod.fst → p ≠ q →
    p + size ≤ q ∨ q + size ≤ p

/-- The inductive invariant of reachable engine states: saved original
bytes agree with the executable image, memory outside the patch ranges
is the image, at rest (trace-stopped) all memory is the image, the
architecture is the loaded one, and table keys are unique. -/
def EngineInv (P : Params) (st : EngineState) : Prop :=
  (∀ pc b, (pc, b) ∈ st.srv.breakpoints →
      b.origInstr.take P.arch.breakpointSize = peekBytes P.image pc P.arch.breakpointSize)
  ∧ (∀ a, ¬ covered st.srv.breakpoints P.arch.breakpointSize a →
      st.world.mem a = P.image a)
  ∧ (st.world.stopped = true → ∀ a, st.world.mem a = P.image a)
  ∧ st.srv.arch = P.arch
  ∧ (st.srv.breakpoints.map Prod.fst).Nodup

/-- Modelled from the spec: the x86-64 architecture descriptor — a
one-byte `0xCC` breakpoint instruction stored in an array of the
cross-ISA maximum size 4. -/
def amd64Model : Arch :=
  { pointerSize := 8, intSize := 8, breakpointSize := 1, maxBreakpointSize := 4,
    breakpointInstr := [204, 0, 0, 0], int := fun _ => 0 }

/-- Modelled from the spec: an ARM-style architecture descriptor — a
four-byte breakpoint instruction (`BKPT`, little-endian bytes). -/
def armModel : Arch :=
  { pointerSize := 4, intSize := 4, breakpointSize := 4, maxBreakpointSize := 4,
    breakpointInstr := [112, 0, 32, 225], int := fun _ => 0 }

/-- A `wait` oracle event: task `pid` stopped with a plain SIGTRAP. -/
def trapStop (pid : Nat) : WEvent :=
  WEvent.stopEv pid { stopSignal := SIGTRAP, trapCause := 0 }

/-- A resolver whose regex branch yields two symbols at the adjacent
addresses 100 and 101. -/
def cexResolver : Resolver :=
  { lookupRE := fun _ => Except.ok ["x", "y"]
    lookupSym := fun s =>
      if s = "x" then Except.ok 100
      else if s = "y" then Except.ok 101
      else Except.error Err.lookupFailed
    lookupSource := fun _ => none
    lookupPC := fun _ => Except.error Err.lookupFailed
    parseUint := fun _ => Except.error Err.lookupFailed }

/-- Session data on the ARM-style descriptor, with a constant image. -/
def cexParams : Params :=
  { arch := armModel, image := fun _ => 7, regs0 := { rip := 0, rsp := 0 } }

/-- Run the debuggee, then set breakpoints at the two overlapping
addresses 100 and 101. -/
def cexCalls : List Call :=
  [Call.runCall (Except.ok 5), Call.breakpointCall cexResolver "re:z"]

/-- A resume oracle with enough plain SIGTRAP stops for a full first
`Resume`. -/
def cexOracle : ResumeOracle :=
  { events := [trapStop 5, trapStop 5], regsAtStop := { rip := 300, rsp := 400 },
    setOptionsFails := false }

/-- A resolver for which the third regex result resolves to no
address. -/
def c5Resolver : Resolver :=
  { lookupRE := fun _ => Except.ok ["x", "y", "zz"]
    lookupSym := fun s =>
      if s = "x" then Except.ok 100
      else if s = "y" then Except.ok 200
      else Except.error Err.lookupFailed
    lookupSource := fun _ => none
    lookupPC := fun _ => Except.error Err.lookupFailed
    parseUint := fun _ => Except.error Err.lookupFailed }

/-- A table entry with known saved bytes, for exercising the patch
width. -/
def c3bp : breakpoint := { pc := 4096, origInstr := [1, 2, 3, 4] }

/-- Session data on the x86-64-style descriptor. -/
def wParams : Params :=
  { arch := amd64Model, image := fun _ => 9, regs0 := { rip := 64, rsp := 128 } }

/-- A resolver whose regex branch yields one symbol at 4096. -/
def wResolver : Resolver :=
  { lookupRE := fun _ => Except.ok ["p"]
    lookupSym := fun s => if s = "p" then Except.ok 4096 else Except.error Err.lookupFailed
    lookupSource := fun _ => none
    lookupPC := fun _ => Except.error Err.lookupFailed
    parseUint := fun _ => Except.error Err.lookupFailed }

/-- Run the debuggee, then set one breakpoint at 4096. -/
def wCalls : List Call :=
  [Call.runCall (Except.ok 5), Call.breakpointCall wResolver "re:w"]

/-- A debug-info model with one well-typed formal parameter and a
proper terminator entry. -/
def dwGood : DwarfModel :=
  { entryForPC := fun _ => Except.ok 0
    entriesAt := fun _ =>
      [Except.ok { tag := TagFormalParameter, children := false,
                   fields := [DField.location [145], DField.name "x", DField.typeRef 3] },
       Except.ok { tag := 0, children := false, fields := [] }]
    typeOf := fun o => if o = 3 then some { str := "int", size := 8 } else none
    evalLoc := fun _ => 8 }

/-- A debug-info model whose single formal parameter has an
unresolvable type attribute. -/
def dwBad : DwarfModel :=
  { entryForPC := fun _ => Except.ok 0
    entriesAt := fun _ =>
      [Except.ok { tag := TagFormalParameter, children := false,
                   fields := [DField.typeRef 9] }]
    typeOf := fun _ => none
    evalLoc := fun _ => 0 }

/-- A server already up and stopped, with an empty breakpoint table. -/
def c2Server : Server :=
  { arch := amd64Model, proc := some 5, procIsUp := true, stoppedPid := 5,
    stoppedRegs := { rip := 999, rsp := 0 }, breakpoints := [], files := [] }

/-- A stopped world with zeroed memory. -/
def c2World : World :=
  { mem := fun _ => 0, regs := { rip := 0, rsp := 0 }, stopped := true }

/-- One plain trap stop; the debuggee stops with `rip = 300`. -/
def c2Oracle : ResumeOracle :=
  { events := [trapStop 5], regsAtStop := { rip := 300, rsp := 400 },
    setOptionsFails := false }

/-- A server stopped exactly on its own breakpoint at 4096. -/
def c7Server : Server :=
  { arch := amd64Model, proc := some 5, procIsUp := true, stoppedPid := 5,
    stoppedRegs := { rip := 4096, rsp := 0 }, breakpoints := [(4096, c3bp)],
    files := [] }

/-- Trap stops for the single-step wait and for the main wait. -/
def c7Oracle : ResumeOracle :=
  { events := [trapStop 5, trapStop 5], regsAtStop := { rip := 4097, rsp := 50 },
    setOptionsFails := false }

/-- An existing table entry at pc 100 with known saved bytes. -/
def c4bp : breakpoint := { pc := 100, origInstr := [9, 9, 9, 9] }

/-- A server that already has a breakpoint at 100. -/
def c4Server : Server :=
  { arch := amd64Model, proc := some 5, procIsUp := true, stoppedPid := 5,
    stoppedRegs := { rip := 0, rsp := 0 }, breakpoints := [(100, c4bp)],
    files := [] }

/-- A stopped world with constant memory. -/
def c4World : World :=
  { mem := fun _ => 7, regs := { rip := 0, rsp := 0 }, stopped := true }

/-- A resolver resolving to a fresh address and then to the already-set
address 100. -/
def c4Resolver : Resolver :=
  { lookupRE := fun _ => Except.ok ["q", "x"]
    lookupSym := fun s =>
      if s = "q" then Except.ok 50
      else if s = "x" then Except.ok 100
      else Except.error Err.lookupFailed
    lookupSource := fun _ => none
    lookupPC := fun _ => Except.error Err.lookupFailed
    parseUint := fun _ => Except.error Err.lookupFailed }

/-- A started server whose first `Resume` has not happened yet. -/
def c5Server : Server :=
  { arch := amd64Model, proc := some 5, procIsUp := false, stoppedPid := 5,
    stoppedRegs := { rip := 0, rsp := 0 }, breakpoints := [], files := [] }

/-- A resume oracle whose very first `wait` fails in the kernel. -/
def c5Oracle : ResumeOracle :=
  { events := [WEvent.waitErr], regsAtStop := { rip := 0, rsp := 0 },
    setOptionsFails := false }

/-- A server whose file table has a hole at index 1. -/
def c9Server : Server :=
  { arch := amd64Model, proc := none, procIsUp := false, stoppedPid := 0,
    stoppedRegs := { rip := 0, rsp := 0 }, breakpoints := [],
    files := [some { mode := "r", index := 0, f := 11 }, none,
              some { mode := "w", index := 2, f := 12 }] }

/-- A stopped world for the frame walker, with `rsp = 128`. -/
def c10World : World :=
  { mem := fun _ => 9, regs := { rip := 64, rsp := 128 }, stopped := true }

/-- A resume oracle for the amd64-style session. -/
def wOracle : ResumeOracle :=
  { events := [trapStop 5, trapStop 5], regsAtStop := { rip := 4097, rsp := 50 },
    setOptionsFails := false }

theorem peekBytes_length (m : Mem) (a n : Nat) : (peekBytes m a n).length = n := by
  induction n generalizing a with
  | zero => rfl
  | succ n ih => simp [peekBytes, ih]

theorem peekBytes_congr {m m' : Mem} (a n : Nat)
    (h : ∀ i, i < n → m (a + i) = m' (a + i)) :
    peekBytes m a n = peekBytes m' a n := by
  induction n generalizing a with
  | zero => rfl
  | succ n ih =>
    simp only [peekBytes]
    congr 1
    · simpa using h 0 (Nat.succ_pos n)
    · exact ih (a + 1) fun i hi => by
        have := h (i + 1) (Nat.succ_lt_succ hi)
        simpa [Nat.add_assoc, Nat.add_comm 1 i] using this

/-- The value of memory after a poke, pointwise. -/
theorem pokeBytes_apply (vs : List Nat) (m : Mem) (a x : Nat) :
    pokeBytes m a vs x =
      if a ≤ x ∧ x < a + vs.length then vs.getD (x - a) 0 else m x := by
  induction vs generalizing m a with
  | nil =>
    simp only [pokeBytes, List.length_nil, Nat.add_zero]
    rw [if_neg (by omega)]
  | cons v vs ih =>
    simp only [pokeBytes, List.length_cons]
    rw [ih]
    by_cases hx : x = a
    · subst hx
      have hc1 : ¬(x + 1 ≤ x ∧ x < x + 1 + vs.length) := by omega
      have hc2 : x ≤ x ∧ x < x + (vs.length + 1) := by omega
      rw [if_neg hc1, if_pos hc2]
      simp [writeByte]
    · by_cases hle : a + 1 ≤ x ∧ x < a + 1 + vs.length
      · have h1 : a ≤ x ∧ x < a + (vs.length + 1) := by omega
        rw [if_pos hle, if_pos h1]
        have hxa : x - a = (x - (a + 1)) + 1 := by omega
        rw [hxa]
        simp
      · have h2 : ¬(a ≤ x ∧ x < a + (vs.length + 1)) := by omega
        rw [if_neg hle, if_neg h2]
        simp [writeByte, hx]

/-- A poke does not change bytes outside `[a, a + vs.length)`. -/
theorem pokeBytes_outside (vs : List Nat) (m : Mem) (a x : Nat)
    (h : x < a ∨ a + vs.length ≤ x) : pokeBytes m a vs x = m x := by
  rw [pokeBytes_apply]
  have : ¬(a ≤ x ∧ x < a + vs.length) := by omega
  simp [this]

/-- Reading back exactly the bytes that were poked. -/
theorem peekBytes_pokeBytes (vs : List Nat) (m : Mem) (a : Nat) :
    peekBytes (pokeBytes m a vs) a vs.length = vs := by
  induction vs generalizing m a with
  | nil => rfl
  | cons v vs ih =>
    show peekBytes (pokeBytes (writeByte m a v) (a + 1) vs) a (vs.length + 1) = v :: vs
    simp only [peekBytes]
    congr 1
    · rw [pokeBytes_outside vs _ (a + 1) a (by omega)]
      simp [writeByte]
    · exact ih (writeByte m a v) (a + 1)

theorem setBreakpoints_trace (ar : Arch) (pid : Nat) (l : List (Nat × breakpoint)) :
    ∀ m : Mem, (setBreakpoints ar pid l m).2 =
      l.map fun p => TraceOp.pokeOp pid p.1 (ar.breakpointInstr.take ar.breakpointSize) := by
  induction l with
  | nil => intro m; rfl
  | cons hd t ih =>
    intro m
    obtain ⟨pc, b⟩ := hd
    simp [setBreakpoints, ih]

theorem liftBreakpoints_trace (ar : Arch) (pid : Nat) (l : List (Nat × breakpoint)) :
    ∀ m : Mem, (liftBreakpoints ar pid l m).2 =
      l.map fun p => TraceOp.pokeOp pid p.1 (p.2.origInstr.take ar.breakpointSize) := by
  induction l with
  | nil => intro m; rfl
  | cons hd t ih =>
    intro m
    obtain ⟨pc, b⟩ := hd
    simp [liftBreakpoints, ih]

/-- C3 (amended): for every entry of the breakpoint table, install
(`setBreakpoints`) pokes exactly `arch.BreakpointSize` bytes of the
breakpoint instruction at the entry's pc, and lift (`liftBreakpoints`)
pokes exactly `arch.BreakpointSize` bytes of the saved original
instruction at that pc (not `arch.MaxBreakpointSize` bytes: the code
slices both buffers with `[:s.arch.BreakpointSize]`). -/
theorem c3_theorem (ar : Arch) (pid : Nat) (l : List (Nat × breakpoint)) (m : Mem)
    (hwf : ar.WF) (horig : ∀ p ∈ l, p.2.origInstr.length = ar.maxBreakpointSize) :
    (setBreakpoints ar pid l m).2 =
      (l.map fun p => TraceOp.pokeOp pid p.1 (ar.breakpointInstr.take ar.breakpointSize))
    ∧ (liftBreakpoints ar pid l m).2 =
      (l.map fun p => TraceOp.pokeOp pid p.1 (p.2.origInstr.take ar.breakpointSize))
    ∧ (ar.breakpointInstr.take ar.breakpointSize).length = ar.breakpointSize
    ∧ ∀ p ∈ l, (p.2.origInstr.take ar.breakpointSize).length = ar.breakpointSize := by
  obtain ⟨hlen, hle⟩ := hwf
  refine ⟨setBreakpoints_trace ar pid l m, liftBreakpoints_trace ar pid l m, ?_, ?_⟩
  · rw [List.length_take, hlen]
    omega
  · intro p hp
    rw [List.length_take, horig p hp]
    omega

/-- C3 witness: the amended statement evaluated on one concrete
single-entry table over the x86-64-style descriptor. -/
theorem c3_witness :
    (setBreakpoints amd64Model 7 [(4096, c3bp)] (fun _ => 0)).2 =
      ([(4096, c3bp)].map fun p =>
        TraceOp.pokeOp 7 p.1 (amd64Model.breakpointInstr.take amd64Model.breakpointSize))
    ∧ (liftBreakpoints amd64Model 7 [(4096, c3bp)] (fun _ => 0)).2 =
      ([(4096, c3bp)].map fun p =>
        TraceOp.pokeOp 7 p.1 (p.2.origInstr.take amd64Model.breakpointSize))
    ∧ (amd64Model.breakpointInstr.take amd64Model.breakpointSize).length =
        amd64Model.breakpointSize
    ∧ ∀ p ∈ [(4096, c3bp)],
        (p.2.origInstr.take amd64Model.breakpointSize).length = amd64Model.breakpointSize :=
  c3_theorem amd64Model 7 [(4096, c3bp)] (fun _ => 0)
    (by unfold Arch.WF; exact ⟨by decide, by decide⟩) (by decide)

/-- C3 counterexample: on the x86-64-style descriptor the poke issued
for a table entry carries 1 byte (`arch.BreakpointSize`), not
`arch.MaxBreakpointSize = 4` bytes, for both install and lift. -/
theorem c3_counterexample :
    (setBreakpoints amd64Model 7 [(4096, c3bp)] (fun _ => 0)).2 =
      [TraceOp.pokeOp 7 4096 [204]]
    ∧ (liftBreakpoints amd64Model 7 [(4096, c3bp)] (fun _ => 0)).2 =
      [TraceOp.pokeOp 7 4096 [1]]
    ∧ ([204] : List Nat).length ≠ amd64Model.maxBreakpointSize
    ∧ ([1] : List Nat).length ≠ amd64Model.maxBreakpointSize := by
  refine ⟨?_, ?_, by decide, by decide⟩
  · rw [setBreakpoints_trace]
    decide
  · rw [liftBreakpoints_trace]
    decide

/-- C6: `waitForTrap` only returns a task whose consumed event is a
SIGTRAP stop with a non-clone cause; every earlier event is a stop
that is not a non-clone SIGTRAP (never a wait error) and its task is
transparently continued with signal 0; a kernel wait error makes the
loop fail (surfaced by `Resume` as the wait-failed error), again with
every earlier stop transparently continued. -/
theorem c6_theorem (pid : Int) (evs : List WEvent) :
    (∀ w rest, (waitForTrap pid evs).2 = WaitRes.trapped w rest →
      ∃ pre st, evs = pre ++ WEvent.stopEv w st :: rest
        ∧ st.stopSignal = SIGTRAP ∧ st.trapCause ≠ PTRACE_EVENT_CLONE
        ∧ (∀ ev ∈ pre, ev ≠ WEvent.waitErr
            ∧ ∀ w' st', ev = WEvent.stopEv w' st' →
                (st'.stopSignal ≠ SIGTRAP ∨ st'.trapCause = PTRACE_EVENT_CLONE))
        ∧ (∀ w' st', WEvent.stopEv w' st' ∈ pre →
            TraceOp.contOp w' 0 ∈ (waitForTrap pid evs).1))
    ∧ ((waitForTrap pid evs).2 = WaitRes.waitFailed →
      ∃ pre rest, evs = pre ++ WEvent.waitErr :: rest
        ∧ ∀ ev ∈ pre, ev ≠ WEvent.waitErr
            ∧ ∀ w' st', ev = WEvent.stopEv w' st' →
                (st'.stopSignal ≠ SIGTRAP ∨ st'.trapCause = PTRACE_EVENT_CLONE)) := by
  induction evs with
  | nil =>
    constructor
    · intro w rest h
      simp [waitForTrap] at h
    · intro h
      simp [waitForTrap] at h
  | cons ev rest ih =>
    cases ev with
    | waitErr =>
      constructor
      · intro w r h
        simp [waitForTrap] at h
      · intro _
        exact ⟨[], rest, rfl, by simp⟩
    | stopEv w0 st0 =>
      by_cases hc : st0.stopSignal = SIGTRAP ∧ st0.trapCause ≠ PTRACE_EVENT_CLONE
      · constructor
        · intro w r h
          simp only [waitForTrap, if_pos hc] at h
          obtain ⟨hw, hr⟩ := WaitRes.trapped.inj h
          subst hw; subst hr
          exact ⟨[], st0, rfl, hc.1, hc.2, by simp, by simp⟩
        · intro h
          simp [waitForTrap, if_pos hc] at h
      · have hnr : ∀ w' st', WEvent.stopEv w0 st0 = WEvent.stopEv w' st' →
            (st'.stopSignal ≠ SIGTRAP ∨ st'.trapCause = PTRACE_EVENT_CLONE) := by
          intro w' st' he
          obtain ⟨-, h2⟩ := WEvent.stopEv.inj he
          subst h2
          by_cases hs : st0.stopSignal = SIGTRAP
          · right
            by_contra hcl
            exact hc ⟨hs, hcl⟩
          · left; exact hs
        constructor
        · intro w r h
          simp only [waitForTrap, if_neg hc] at h
          obtain ⟨pre, st, heq, h1, h2, h3, h4⟩ := ih.1 w r h
          refine ⟨WEvent.stopEv w0 st0 :: pre, st, by simp [heq], h1, h2, ?_, ?_⟩
          · intro e he
            rcases List.mem_cons.1 he with he0 | hePre
            · subst he0
              exact ⟨by simp, hnr⟩
            · exact h3 e hePre
          · intro w' st' hin
            simp only [waitForTrap, if_neg hc]
            rcases List.mem_cons.1 hin with hin0 | hinPre
            · obtain ⟨hw', -⟩ := WEvent.stopEv.inj hin0.symm
              subst hw'
              simp
            · have := h4 w' st' hinPre
              simp [this]
        · intro h
          simp only [waitForTrap, if_neg hc] at h
          obtain ⟨pre, r, heq, h1⟩ := ih.2 h
          refine ⟨WEvent.stopEv w0 st0 :: pre, r, by simp [heq], ?_⟩
          intro e he
          rcases List.mem_cons.1 he with he0 | hePre
          · subst he0
            exact ⟨by simp, hnr⟩
          · exact h1 e hePre

/-- C6 witness: a non-SIGTRAP stop of task 9 is transparently
continued, then the plain SIGTRAP of task 4 is returned. -/
theorem c6_witness :
    ((waitForTrap 3 [WEvent.stopEv 9 { stopSignal := 19, trapCause := 3 },
        WEvent.stopEv 4 { stopSignal := 5, trapCause := 0 }]).2 =
      WaitRes.trapped 4 [])
    ∧ ∃ pre st,
        [WEvent.stopEv 9 { stopSignal := 19, trapCause := 3 },
         WEvent.stopEv 4 { stopSignal := 5, trapCause := 0 }] =
          pre ++ WEvent.stopEv 4 st :: []
        ∧ st.stopSignal = SIGTRAP ∧ st.trapCause ≠ PTRACE_EVENT_CLONE
        ∧ (∀ ev ∈ pre, ev ≠ WEvent.waitErr
            ∧ ∀ w' st', ev = WEvent.stopEv w' st' →
                (st'.stopSignal ≠ SIGTRAP ∨ st'.trapCause = PTRACE_EVENT_CLONE))
        ∧ (∀ w' st', WEvent.stopEv w' st' ∈ pre →
            TraceOp.contOp w' 0 ∈
              (waitForTrap 3 [WEvent.stopEv 9 { stopSignal := 19, trapCause := 3 },
                WEvent.stopEv 4 { stopSignal := 5, trapCause := 0 }]).1) :=
  ⟨by decide,
    (c6_theorem 3 [WEvent.stopEv 9 { stopSignal := 19, trapCause := 3 },
      WEvent.stopEv 4 { stopSignal := 5, trapCause := 0 }]).1 4 [] (by decide)⟩

theorem resumePhase1_go_char (s : Server) (w : World) (o : ResumeOracle)
    (s1 : Server) (evs : List WEvent) (tr : List TraceOp)
    (h : resumePhase1 s w o = Phase1Res.go s1 evs tr) :
    s1 = s ∨ s1 = { s with procIsUp := true } := by
  simp only [resumePhase1] at h
  split at h
  · split at h
    · exact Phase1Res.noConfusion h
    · exact Phase1Res.noConfusion h
    · split at h
      · exact Phase1Res.noConfusion h
      · obtain ⟨h1, -, -⟩ := Phase1Res.go.inj h
        exact Or.inr h1.symm
  · split at h
    · split at h
      · exact Phase1Res.noConfusion h
      · exact Phase1Res.noConfusion h
      · obtain ⟨h1, -, -⟩ := Phase1Res.go.inj h
        exact Or.inl h1.symm
    · obtain ⟨h1, -, -⟩ := Phase1Res.go.inj h
      exact Or.inl h1.symm

theorem resumePhase1_abort_result (s : Server) (w : World) (o : ResumeOracle)
    (out : ResumeOut) (h : resumePhase1 s w o = Phase1Res.abort out) :
    out.result = none ∨ ∃ e, out.result = some (Except.error e) := by
  simp only [resumePhase1] at h
  split at h
  · split at h
    · obtain h1 := Phase1Res.abort.inj h
      subst h1
      exact Or.inr ⟨Err.waitFailed, rfl⟩
    · obtain h1 := Phase1Res.abort.inj h
      subst h1
      exact Or.inl rfl
    · split at h
      · obtain h1 := Phase1Res.abort.inj h
        subst h1
        exact Or.inr ⟨Err.setOptionsFailed, rfl⟩
      · exact Phase1Res.noConfusion h
  · split at h
    · split at h
      · obtain h1 := Phase1Res.abort.inj h
        subst h1
        exact Or.inr ⟨Err.waitFailed, rfl⟩
      · obtain h1 := Phase1Res.abort.inj h
        subst h1
        exact Or.inl rfl
      · exact Phase1Res.noConfusion h
    · exact Phase1Res.noConfusion h

/-- C2: whenever `Resume` returns a status, its `PC` is the `Rip`
observed at the stop-producing wait minus `arch.BreakpointSize`
(uint64 wrap-around), its `SP` is the observed `Rsp`, and the
decremented register file has been written back to the debuggee (and
cached in `stoppedRegs`), so a subsequent read of the debuggee's
program counter yields the returned `PC`. -/
theorem c2_theorem (s : Server) (w : World) (o : ResumeOracle) (r : Status)
    (h : (Server.Resume s w o).result = some (Except.ok r)) :
    r.pc = u64sub o.regsAtStop.rip s.arch.breakpointSize
    ∧ r.sp = o.regsAtStop.rsp
    ∧ (Server.Resume s w o).w.regs = { rip := r.pc, rsp := r.sp }
    ∧ (Server.Resume s w o).s.stoppedRegs = { rip := r.pc, rsp := r.sp } := by
  cases hp : s.proc with
  | none =>
    simp [Server.Resume, hp] at h
  | some p =>
    simp only [Server.Resume, hp] at h ⊢
    cases hph : resumePhase1 s w o with
    | abort out =>
      rw [hph] at h
      have h1 : out.result = some (Except.ok r) := h
      rcases resumePhase1_abort_result s w o out hph with hn | ⟨e, he⟩
      · rw [hn] at h1
        exact absurd h1 (by simp)
      · rw [he] at h1
        simp at h1
    | go s1 evs tr1 =>
      rw [hph] at h
      have h1 : (resumeRest s1 w o evs tr1).result = some (Except.ok r) := h
      have harch : s1.arch = s.arch := by
        rcases resumePhase1_go_char s w o s1 evs tr1 hph with he | he <;>
          subst he <;> rfl
      suffices hs : r.pc = u64sub o.regsAtStop.rip s.arch.breakpointSize
          ∧ r.sp = o.regsAtStop.rsp
          ∧ (resumeRest s1 w o evs tr1).w.regs = { rip := r.pc, rsp := r.sp }
          ∧ (resumeRest s1 w o evs tr1).s.stoppedRegs = { rip := r.pc, rsp := r.sp }
        from hs
      simp only [resumeRest] at h1 ⊢
      cases hwt : (waitForTrap (-1) evs).2 with
      | waitFailed =>
        rw [hwt] at h1
        simp at h1
      | exhausted =>
        rw [hwt] at h1
        simp at h1
      | trapped wpid rest =>
        rw [hwt] at h1
        have h2 : some (Except.ok
            (⟨u64sub o.regsAtStop.rip s1.arch.breakpointSize, o.regsAtStop.rsp⟩ : Status))
            = some (Except.ok r) := h1
        obtain h3 := Except.ok.inj (Option.some.inj h2)
        subst h3
        refine ⟨?_, rfl, rfl, rfl⟩
        rw [← harch]

/-- C2 witness: a concrete `Resume` whose stop observes `rip = 300`;
the returned status is `pc = 299`, `sp = 400`, and both the debuggee's
register file and the cached `stoppedRegs` hold `rip = 299`. -/
theorem c2_witness :
    (Server.Resume c2Server c2World c2Oracle).result =
      some (Except.ok { pc := 299, sp := 400 })
    ∧ ((299 : Nat) = u64sub 300 c2Server.arch.breakpointSize
      ∧ (400 : Nat) = (400 : Nat)
      ∧ (Server.Resume c2Server c2World c2Oracle).w.regs = { rip := 299, rsp := 400 }
      ∧ (Server.Resume c2Server c2World c2Oracle).s.stoppedRegs =
          { rip := 299, rsp := 400 }) :=
  ⟨rfl, c2_theorem c2Server c2World c2Oracle { pc := 299, sp := 400 } rfl⟩

theorem waitForTrap_no_poke (pid : Int) (evs : List WEvent) (p a : Nat) (d : List Nat) :
    TraceOp.pokeOp p a d ∉ (waitForTrap pid evs).1 := by
  induction evs with
  | nil => simp [waitForTrap]
  | cons ev rest ih =>
    cases ev with
    | waitErr => simp [waitForTrap]
    | stopEv w0 st0 =>
      by_cases hc : st0.stopSignal = SIGTRAP ∧ st0.trapCause ≠ PTRACE_EVENT_CLONE
      · simp [waitForTrap, hc]
      · simp only [waitForTrap, if_neg hc, List.mem_cons]
        push_neg
        exact ⟨by simp, by simp, ih⟩

/-- C7: when `Resume` is called with the process up and the cached
stopped pc sitting on a table entry, the emitted operation trace starts
with a single-step of the stopped task followed by the operations of
the wait for its trap (which contain no poke); only after that wait
returns a trap are the breakpoint-install pokes and the continue
emitted, in that order. -/
theorem c7_theorem (s : Server) (w : World) (o : ResumeOracle) (p : Nat)
    (hproc : s.proc = some p) (hup : s.procIsUp = true)
    (hbp : (bpLookup s.breakpoints s.stoppedRegs.rip).isSome = true) :
    (∃ t, (Server.Resume s w o).trace =
        TraceOp.singleStepOp s.stoppedPid ::
          ((waitForTrap (Int.ofNat s.stoppedPid) o.events).1 ++ t))
    ∧ (∀ pid a d,
        TraceOp.pokeOp pid a d ∉ (waitForTrap (Int.ofNat s.stoppedPid) o.events).1)
    ∧ (∀ wp rest,
        (waitForTrap (Int.ofNat s.stoppedPid) o.events).2 = WaitRes.trapped wp rest →
        ∃ t2, (Server.Resume s w o).trace =
          TraceOp.singleStepOp s.stoppedPid ::
            ((waitForTrap (Int.ofNat s.stoppedPid) o.events).1
              ++ (setBreakpoints s.arch s.stoppedPid s.breakpoints w.mem).2
              ++ TraceOp.contOp s.stoppedPid 0 :: t2)) := by
  have hnp : ∀ pid a d,
      TraceOp.pokeOp pid a d ∉ (waitForTrap (Int.ofNat s.stoppedPid) o.events).1 :=
    fun pid a d => waitForTrap_no_poke (Int.ofNat s.stoppedPid) o.events pid a d
  simp only [Server.Resume, hproc, resumePhase1, hup, hbp]
  rw [if_neg (by decide : ¬(true = false)), if_pos trivial]
  cases hwt : (waitForTrap (Int.ofNat s.stoppedPid) o.events).2 with
  | waitFailed =>
    refine ⟨⟨[], by simp⟩, hnp, ?_⟩
    intro wp rest hcontra
    exact WaitRes.noConfusion hcontra
  | exhausted =>
    refine ⟨⟨[], by simp⟩, hnp, ?_⟩
    intro wp rest hcontra
    exact WaitRes.noConfusion hcontra
  | trapped wp0 rest0 =>
    simp only [resumeRest]
    refine ⟨?_, hnp, ?_⟩
    · refine ⟨(setBreakpoints s.arch s.stoppedPid s.breakpoints w.mem).2
        ++ TraceOp.contOp s.stoppedPid 0 :: ((waitForTrap (-1) rest0).1
          ++ (match (waitForTrap (-1) rest0).2 with
              | WaitRes.trapped wpid _ =>
                (liftBreakpoints s.arch wpid s.breakpoints
                  (setBreakpoints s.arch s.stoppedPid s.breakpoints w.mem).1).2
                ++ [TraceOp.getRegsOp wpid, TraceOp.setRegsOp wpid
                    { rip := u64sub o.regsAtStop.rip s.arch.breakpointSize,
                      rsp := o.regsAtStop.rsp }]
              | _ => [])), ?_⟩
      cases hwt2 : (waitForTrap (-1) rest0).2 with
      | waitFailed => simp
      | exhausted => simp
      | trapped wpid2 rest2 => simp
    · intro wp rest htr
      refine ⟨(waitForTrap (-1) rest0).1
          ++ (match (waitForTrap (-1) rest0).2 with
              | WaitRes.trapped wpid _ =>
                (liftBreakpoints s.arch wpid s.breakpoints
                  (setBreakpoints s.arch s.stoppedPid s.breakpoints w.mem).1).2
                ++ [TraceOp.getRegsOp wpid, TraceOp.setRegsOp wpid
                    { rip := u64sub o.regsAtStop.rip s.arch.breakpointSize,
                      rsp := o.regsAtStop.rsp }]
              | _ => []), ?_⟩
      cases hwt2 : (waitForTrap (-1) rest0).2 with
      | waitFailed => simp
      | exhausted => simp
      | trapped wpid2 rest2 => simp

/-- C7 witness: the single-step ordering evaluated on a concrete server
stopped on its breakpoint at 4096. -/
theorem c7_witness :
    (∃ t, (Server.Resume c7Server c4World c7Oracle).trace =
        TraceOp.singleStepOp c7Server.stoppedPid ::
          ((waitForTrap (Int.ofNat c7Server.stoppedPid) c7Oracle.events).1 ++ t))
    ∧ (∀ pid a d,
        TraceOp.pokeOp pid a d ∉
          (waitForTrap (Int.ofNat c7Server.stoppedPid) c7Oracle.events).1)
    ∧ (∀ wp rest,
        (waitForTrap (Int.ofNat c7Server.stoppedPid) c7Oracle.events).2 =
            WaitRes.trapped wp rest →
        ∃ t2, (Server.Resume c7Server c4World c7Oracle).trace =
          TraceOp.singleStepOp c7Server.stoppedPid ::
            ((waitForTrap (Int.ofNat c7Server.stoppedPid) c7Oracle.events).1
              ++ (setBreakpoints c7Server.arch c7Server.stoppedPid
                    c7Server.breakpoints c4World.mem).2
              ++ TraceOp.contOp c7Server.stoppedPid 0 :: t2)) :=
  c7_theorem c7Server c4World c7Oracle 5 rfl rfl rfl

theorem bpLookup_append_left (l l2 : List (Nat × breakpoint)) (pc : Nat) (b : breakpoint)
    (h : bpLookup l pc = some b) : bpLookup (l ++ l2) pc = some b := by
  induction l with
  | nil => simp [bpLookup] at h
  | cons hd t ih =>
    obtain ⟨p, bb⟩ := hd
    by_cases hp : p = pc
    · simpa [bpLookup, hp] using h
    · simp only [bpLookup, if_neg hp] at h
      simpa [bpLookup, if_neg hp] using ih h

theorem breakpointLoop_dup (ar : Arch) (m : Mem) (R : Resolver)
    (addrs : List String) (pc : Nat) (b0 : breakpoint) :
    ∀ bps, bpLookup bps pc = some b0 →
    (∀ a ∈ addrs, ∃ q, evalAddress R a = Except.ok q) →
    (∃ a ∈ addrs, evalAddress R a = Except.ok pc) →
    (∃ q, (breakpointLoop ar m true R addrs bps).2 = some (Err.duplicateBreakpoint q))
    ∧ bpLookup (breakpointLoop ar m true R addrs bps).1 pc = some b0 := by
  induction addrs with
  | nil =>
    intro bps _ _ h3
    obtain ⟨a, ha, -⟩ := h3
    exact absurd ha (List.not_mem_nil a)
  | cons a rest ih =>
    intro bps h1 h2 h3
    obtain ⟨q, hq⟩ := h2 a (List.mem_cons_self a rest)
    simp only [breakpointLoop, hq]
    by_cases hdup : (bpLookup bps q).isSome
    · simp only [hdup, if_true]
      exact ⟨⟨q, rfl⟩, h1⟩
    · have hqpc : q ≠ pc := by
        intro he
        subst he
        rw [h1] at hdup
        exact hdup rfl
      simp only [hdup, if_false, Bool.false_eq_true]
      have h1' : bpLookup (bps ++ [(q, bpOrig ar m q)]) pc = some b0 :=
        bpLookup_append_left bps [(q, bpOrig ar m q)] pc b0 h1
      have h2' : ∀ a' ∈ rest, ∃ q', evalAddress R a' = Except.ok q' :=
        fun a' ha' => h2 a' (List.mem_cons_of_mem a ha')
      have h3' : ∃ a' ∈ rest, evalAddress R a' = Except.ok pc := by
        obtain ⟨a', ha', hpc'⟩ := h3
        rcases List.mem_cons.1 ha' with he | he
        · subst he
          rw [hq] at hpc'
          exact absurd (Except.ok.inj hpc') hqpc
        · exact ⟨a', he, hpc'⟩
      exact ih (bps ++ [(q, bpOrig ar m q)]) h1' h2' h3'

/-- C4: when the breakpoint table already holds an entry at `pc` and a
`Breakpoint` request's expression resolves (among others) to `pc`, with
the debuggee present and stopped, the handler returns the
duplicate-breakpoint error and the entry saved at `pc` — in particular
its original instruction bytes — is not overwritten. -/
theorem c4_theorem (s : Server) (w : World) (R : Resolver) (expr : String)
    (pc : Nat) (b0 : breakpoint) (addrs : List String)
    (hpeek : (s.proc.isSome && w.stopped) = true)
    (hev : eval R expr = Except.ok addrs)
    (hall : ∀ a ∈ addrs, ∃ q, evalAddress R a = Except.ok q)
    (hhit : ∃ a ∈ addrs, evalAddress R a = Except.ok pc)
    (hb : bpLookup s.breakpoints pc = some b0) :
    (∃ q, (Server.Breakpoint s w R expr).2 = some (Err.duplicateBreakpoint q))
    ∧ bpLookup (Server.Breakpoint s w R expr).1.breakpoints pc = some b0 := by
  simp only [Server.Breakpoint, hev, hpeek]
  exact breakpointLoop_dup s.arch w.mem R addrs pc b0 s.breakpoints hb hall hhit

/-- C4 witness: a request resolving to the fresh address 50 and then to
the already-set address 100 fails with the duplicate error and leaves
the entry at 100 intact. -/
theorem c4_witness :
    (∃ q, (Server.Breakpoint c4Server c4World c4Resolver "re:q").2 =
        some (Err.duplicateBreakpoint q))
    ∧ bpLookup (Server.Breakpoint c4Server c4World c4Resolver "re:q").1.breakpoints 100 =
        some c4bp :=
  c4_theorem c4Server c4World c4Resolver "re:q" 100 c4bp ["q", "x"] rfl rfl
    (by
      intro a ha
      rcases List.mem_cons.1 ha with he | he
      · subst he
        exact ⟨50, rfl⟩
      · rcases List.mem_cons.1 he with he2 | he2
        · subst he2
          exact ⟨100, rfl⟩
        · exact absurd he2 (List.not_mem_nil a))
    ⟨"x", by simp, rfl⟩ rfl

theorem breakpointLoop_shape (ar : Arch) (m : Mem) (canPeek : Bool) (R : Resolver) :
    ∀ (addrs : List String) (bps : List (Nat × breakpoint)),
    ∃ l2, (breakpointLoop ar m canPeek R addrs bps).1 = bps ++ l2
      ∧ ∀ p ∈ l2, canPeek = true ∧ p.2 = bpOrig ar m p.1
      ∧ (bpLookup bps p.1).isSome = false := by
  intro addrs
  induction addrs with
  | nil =>
    intro bps
    exact ⟨[], by simp [breakpointLoop], by simp⟩
  | cons a rest ih =>
    intro bps
    cases hq : evalAddress R a with
    | error e => exact ⟨[], by simp [breakpointLoop, hq], by simp⟩
    | ok q =>
      by_cases hdup : (bpLookup bps q).isSome
      · exact ⟨[], by simp [breakpointLoop, hq, hdup], by simp⟩
      · by_cases hcp : canPeek = true
        · obtain ⟨l2, hl2, hprop⟩ := ih (bps ++ [(q, bpOrig ar m q)])
          refine ⟨(q, bpOrig ar m q) :: l2, ?_, ?_⟩
          · simp only [breakpointLoop, hq]
            rw [if_neg (by simpa using hdup), if_pos hcp, hl2]
            simp
          · intro p hp
            rcases List.mem_cons.1 hp with he | he
            · subst he
              refine ⟨hcp, rfl, ?_⟩
              simpa using hdup
            · obtain ⟨hc, hb, hl⟩ := hprop p he
              refine ⟨hc, hb, ?_⟩
              by_contra hcon
              simp only [Bool.not_eq_false] at hcon
              obtain ⟨bb, hbb⟩ := Option.isSome_iff_exists.1 hcon
              rw [bpLookup_append_left bps _ p.1 bb hbb] at hl
              simp at hl
        · refine ⟨[], ?_, by simp⟩
          simp only [breakpointLoop, hq]
          rw [if_neg (by simpa using hdup), if_neg hcp]
          simp

/-- C5 (amended): error returns are not atomic in two respects the
original claim asserts: (a) a `Breakpoint` request mutates only the
breakpoint table, and on any outcome — error included — the table is
the original table with some (possibly empty) list of new entries
appended at previously unset pcs, i.e. entries inserted for addresses
that resolved before a failure persist; (b) a first `Resume`
(`procIsUp = false`) whose initial wait fails returns the wait-failed
error with `procIsUp` already set to `true` (the flag is set before
waiting and never rolled back), the breakpoint and file tables and the
debuggee memory unchanged. -/
theorem c5_theorem (s : Server) (w : World) (R : Resolver) (expr : String)
    (o : ResumeOracle) (p : Nat) :
    ((Server.Breakpoint s w R expr).1.proc = s.proc
      ∧ (Server.Breakpoint s w R expr).1.procIsUp = s.procIsUp
      ∧ (Server.Breakpoint s w R expr).1.stoppedPid = s.stoppedPid
      ∧ (Server.Breakpoint s w R expr).1.stoppedRegs = s.stoppedRegs
      ∧ (Server.Breakpoint s w R expr).1.files = s.files
      ∧ ∃ l2, (Server.Breakpoint s w R expr).1.breakpoints = s.breakpoints ++ l2
          ∧ ∀ q ∈ l2, q.2 = bpOrig s.arch w.mem q.1
            ∧ (bpLookup s.breakpoints q.1).isSome = false)
    ∧ (s.proc = some p → s.procIsUp = false →
        (waitForTrap (Int.ofNat s.stoppedPid) o.events).2 = WaitRes.waitFailed →
        (Server.Resume s w o).result = some (Except.error Err.waitFailed)
        ∧ (Server.Resume s w o).s.procIsUp = true
        ∧ (Server.Resume s w o).s.breakpoints = s.breakpoints
        ∧ (Server.Resume s w o).s.files = s.files
        ∧ (Server.Resume s w o).w.mem = w.mem) := by
  constructor
  · cases hev : eval R expr with
    | error e =>
      simp [Server.Breakpoint, hev]
    | ok addrs =>
      simp only [Server.Breakpoint, hev]
      obtain ⟨l2, hl2, hprop⟩ :=
        breakpointLoop_shape s.arch w.mem (s.proc.isSome && w.stopped) R addrs s.breakpoints
      exact ⟨by simp, by simp, by simp, by simp, by simp, l2, hl2,
        fun q hq => ⟨(hprop q hq).2.1, (hprop q hq).2.2⟩⟩
  · intro hproc hup hwf
    simp only [Server.Resume, hproc, resumePhase1, hup]
    rw [if_pos trivial, hwf]
    exact ⟨rfl, rfl, rfl, rfl, rfl⟩

/-- C5 counterexample: a `Breakpoint` request over three addresses that
fails on the third still inserts the first two entries (the claim says
no entries are left), and a first `Resume` whose initial wait fails
leaves `procIsUp = true` (the claim says false). -/
theorem c5_counterexample :
    (Server.Breakpoint c5Server c4World c5Resolver "re:a").2 =
      some (Err.notAnAddress "zz")
    ∧ (Server.Breakpoint c5Server c4World c5Resolver "re:a").1.breakpoints.map Prod.fst =
      [100, 200]
    ∧ ([100, 200] : List Nat) ≠ c5Server.breakpoints.map Prod.fst
    ∧ (Server.Resume c5Server c2World c5Oracle).result =
      some (Except.error Err.waitFailed)
    ∧ (Server.Resume c5Server c2World c5Oracle).s.procIsUp = true
    ∧ c5Server.procIsUp = false :=
  ⟨rfl, rfl, by decide, rfl, rfl, rfl⟩

/-- C8: `Eval` and `Frames` (for any `Count`) are read-only: the server
state — breakpoint table, file table, process fields — and the
debuggee's memory and registers are returned exactly as they were; the
handlers only read (`ptraceGetRegs` into a local, `ptracePeek`). -/
theorem c8_theorem (s : Server) (w : World) (R : Resolver) (expr : String)
    (dw : DwarfModel) (count : Nat) :
    (Server.Eval s w R expr).1 = s ∧ (Server.Eval s w R expr).2.1 = w
    ∧ (Server.Frames s w dw count).1 = s ∧ (Server.Frames s w dw count).2.1 = w := by
  refine ⟨rfl, rfl, ?_, ?_⟩ <;>
  · simp only [Server.Frames]
    split
    · rfl
    · split
      · rfl
      · split <;> rfl

theorem findSlot_le (l : List (Option file)) : findSlot l ≤ l.length := by
  induction l with
  | nil => exact Nat.le_refl 0
  | cons hd t ih =>
    cases hd with
    | none => exact Nat.zero_le _
    | some f => simpa [findSlot] using Nat.succ_le_succ ih

theorem findSlot_full (l : List (Option file)) :
    ∀ j, j < findSlot l → ∃ f0, l.get? j = some (some f0) := by
  induction l with
  | nil => intro j hj; simp [findSlot] at hj
  | cons hd t ih =>
    intro j hj
    cases hd with
    | none => simp [findSlot] at hj
    | some f =>
      cases j with
      | zero => exact ⟨f, rfl⟩
      | succ n =>
        simp only [findSlot] at hj
        exact ih n (Nat.lt_of_succ_lt_succ hj)

theorem findSlot_empty (l : List (Option file)) (h : findSlot l < l.length) :
    l.get? (findSlot l) = some none := by
  induction l with
  | nil => simp [findSlot] at h
  | cons hd t ih =>
    cases hd with
    | none => rfl
    | some f =>
      simp only [findSlot, List.length_cons] at h
      simpa [findSlot] using ih (Nat.lt_of_succ_lt_succ h)

theorem listSet_get?_same {α : Type} (l : List α) (i : Nat) (x : α)
    (h : i < l.length) : (l.set i x).get? i = some x := by
  induction l generalizing i with
  | nil => simp at h
  | cons hd t ih =>
    cases i with
    | zero => rfl
    | succ n =>
      simpa [List.set] using ih n (by simpa using h)

theorem listSet_get?_other {α : Type} (l : List α) (i j : Nat) (x : α)
    (h : i ≠ j) : (l.set i x).get? j = l.get? j := by
  induction l generalizing i j with
  | nil => simp
  | cons hd t ih =>
    cases i with
    | zero =>
      cases j with
      | zero => exact absurd rfl h
      | succ n => rfl
    | succ n =>
      cases j with
      | zero => rfl
      | succ k =>
        simpa [List.set] using ih n k (fun he => h (by rw [he]))

theorem listAppend_get?_len {α : Type} (l : List α) (x : α) :
    (l ++ [x]).get? l.length = some x := by
  induction l with
  | nil => rfl
  | cons hd t ih => simpa using ih

theorem listAppend_get?_ne {α : Type} (l : List α) (x : α) (j : Nat)
    (h : j ≠ l.length) : (l ++ [x]).get? j = l.get? j := by
  induction l generalizing j with
  | nil =>
    cases j with
    | zero => exact absurd rfl h
    | succ n => simp
  | cons hd t ih =>
    cases j with
    | zero => rfl
    | succ n =>
      simpa using ih n (fun he => h (by rw [he]; rfl))

/-- C9: a successful `Open` stores the new record at the smallest index
whose slot is empty (every smaller slot is occupied; the chosen slot
was empty or the table was full), grows the table by exactly one only
when no empty slot exists, and leaves every other slot unchanged. -/
theorem c9_theorem (s : Server) (name mode : String) (h : Nat)
    (hmode : mode = "r" ∨ mode = "w" ∨ mode = "rw") :
    (Server.Open s name mode (Except.ok h)).2 = none
    ∧ (Server.Open s name mode (Except.ok h)).1.files.get? (findSlot s.files) =
        some (some { mode := mode, index := findSlot s.files, f := h })
    ∧ (∀ j, j < findSlot s.files → ∃ f0, s.files.get? j = some (some f0))
    ∧ (findSlot s.files = s.files.length ∨ s.files.get? (findSlot s.files) = some none)
    ∧ (Server.Open s name mode (Except.ok h)).1.files.length =
        (if findSlot s.files = s.files.length then s.files.length + 1 else s.files.length)
    ∧ (∀ j, j ≠ findSlot s.files →
        (Server.Open s name mode (Except.ok h)).1.files.get? j = s.files.get? j) := by
  simp only [Server.Open, if_pos hmode]
  by_cases hfull : findSlot s.files = s.files.length
  · rw [if_pos hfull]
    refine ⟨rfl, ?_, findSlot_full s.files, Or.inl hfull, ?_, ?_⟩
    · show (s.files ++ [some _]).get? (findSlot s.files) = _
      rw [hfull, listAppend_get?_len]
    · simp [hfull]
    · intro j hj
      show (s.files ++ [some _]).get? j = s.files.get? j
      exact listAppend_get?_ne s.files _ j (by rw [← hfull]; exact hj)
  · rw [if_neg hfull]
    have hlt : findSlot s.files < s.files.length :=
      Nat.lt_of_le_of_ne (findSlot_le s.files) hfull
    refine ⟨rfl, ?_, findSlot_full s.files, Or.inr (findSlot_empty s.files hlt), ?_, ?_⟩
    · exact listSet_get?_same s.files (findSlot s.files) _ hlt
    · simp [hfull]
    · intro j hj
      exact listSet_get?_other s.files (findSlot s.files) j _ (fun he => hj he.symm)

/-- C9 witness: opening a file on a table with a hole at index 1 stores
the record at index 1, keeps the length at 3, and leaves slots 0 and 2
unchanged. -/
theorem c9_witness :
    (Server.Open c9Server "f.txt" "rw" (Except.ok 33)).2 = none
    ∧ (Server.Open c9Server "f.txt" "rw" (Except.ok 33)).1.files.get?
        (findSlot c9Server.files) =
        some (some { mode := "rw", index := findSlot c9Server.files, f := 33 })
    ∧ (∀ j, j < findSlot c9Server.files → ∃ f0, c9Server.files.get? j = some (some f0))
    ∧ (findSlot c9Server.files = c9Server.files.length
        ∨ c9Server.files.get? (findSlot c9Server.files) = some none)
    ∧ (Server.Open c9Server "f.txt" "rw" (Except.ok 33)).1.files.length =
        (if findSlot c9Server.files = c9Server.files.length then
          c9Server.files.length + 1 else c9Server.files.length)
    ∧ (∀ j, j ≠ findSlot c9Server.files →
        (Server.Open c9Server "f.txt" "rw" (Except.ok 33)).1.files.get? j =
          c9Server.files.get? j) :=
  c9_theorem c9Server "f.txt" "rw" 33 (Or.inr (Or.inr rfl))

theorem framesFields_total (ar : Arch) (dw : DwarfModel) (m : Mem) (fp : Nat) :
    ∀ (fields : List DField) (loc : Nat) (acc : String),
      fieldsResolve dw fields = true →
      framesFields ar dw m fp fields loc acc ≠ none := by
  intro fields
  induction fields with
  | nil =>
    intro loc acc _
    simp [framesFields]
  | cons f rest ih =>
    intro loc acc hres
    cases f with
    | location bytes =>
      simp only [framesFields]
      exact ih _ _ (by simpa [fieldsResolve] using hres)
    | name n =>
      simp only [framesFields]
      exact ih _ _ (by simpa [fieldsResolve] using hres)
    | otherAttr =>
      simp only [framesFields]
      exact ih _ _ (by simpa [fieldsResolve] using hres)
    | typeRef off =>
      simp only [fieldsResolve, Bool.and_eq_true] at hres
      obtain ⟨hsome, hrest⟩ := hres
      obtain ⟨t, ht⟩ := Option.isSome_iff_exists.1 hsome
      simp only [framesFields, ht]
      split
      · split
        · simp
        · exact ih _ _ hrest
      · exact ih _ _ hrest

theorem framesLoop_total (ar : Arch) (dw : DwarfModel) (m : Mem) (fp : Nat) :
    ∀ (ents : List (Except Unit DEntry)) (acc : String),
      entriesResolve dw ents = true → endsWell ents = true →
      framesLoop ar dw m fp ents acc ≠ none := by
  intro ents
  induction ents with
  | nil =>
    intro acc _ hew
    simp [endsWell] at hew
  | cons e rest ih =>
    intro acc hres hew
    cases e with
    | error u => simp [framesLoop]
    | ok en =>
      simp only [entriesResolve, Bool.and_eq_true] at hres
      obtain ⟨hfr, hrest⟩ := hres
      by_cases htag : en.tag = 0
      · simp [framesLoop, htag]
      · have hew' : endsWell rest = true := by
          simp only [endsWell, Bool.or_eq_true, beq_iff_eq] at hew
          exact hew.resolve_left htag
        by_cases hfp : en.tag = TagFormalParameter
        · simp only [framesLoop, if_neg htag]
          rw [if_neg (by simpa using hfp)]
          by_cases hch : en.children = true
          · simp [hch]
          · rw [if_neg hch]
            cases hff : framesFields ar dw m fp en.fields 0 acc with
            | none => exact absurd hff (framesFields_total ar dw m fp en.fields 0 acc hfr)
            | some x =>
              cases x with
              | error er => simp
              | ok pr => exact ih pr.2 hrest hew'
        · simp only [framesLoop, if_neg htag]
          rw [if_pos (by simpa using hfp)]
          exact ih acc hrest hew'

/-- C10: the `Frames` handler with `Count = 1` returns (possibly with
an error) whenever every formal parameter's type attribute resolves in
the type table and the entry stream terminates; and it is undefined
(the Go code dereferences the nil `dwarf.Type` interface and panics)
as soon as the walk reaches a formal parameter whose leading type
attribute fails to resolve. -/
theorem c10_theorem (s : Server) (w : World) (dw : DwarfModel) (off : Nat)
    (hoff : dw.entryForPC w.regs.rip = Except.ok off) :
    (entriesResolve dw (dw.entriesAt off) = true →
      endsWell (dw.entriesAt off) = true →
      (Server.Frames s w dw 1).2.2 ≠ none)
    ∧ (∀ toff fs rest, dw.typeOf toff = none →
        dw.entriesAt off =
          Except.ok { tag := TagFormalParameter, children := false,
                      fields := DField.typeRef toff :: fs } :: rest →
        (Server.Frames s w dw 1).2.2 = none) := by
  constructor
  · intro hres hew
    simp only [Server.Frames]
    rw [if_neg (by simp)]
    simp only [hoff]
    cases hloop : framesLoop s.arch dw w.mem
        (u64add w.regs.rsp s.arch.pointerSize) (dw.entriesAt off) "" with
    | none =>
      exact absurd hloop (framesLoop_total s.arch dw w.mem
        (u64add w.regs.rsp s.arch.pointerSize) (dw.entriesAt off) "" hres hew)
    | some x => cases x <;> simp
  · intro toff fs rest hfail hents
    simp only [Server.Frames]
    rw [if_neg (by simp)]
    simp only [hoff, hents]
    simp [framesLoop, framesFields, hfail, TagFormalParameter]

/-- C10 witness: with a resolvable `int` parameter and a terminator the
handler returns; with an unresolvable type attribute on the first
formal parameter it is undefined. -/
theorem c10_witness :
    ((Server.Frames c2Server c10World dwGood 1).2.2 ≠ none)
    ∧ ((Server.Frames c2Server c10World dwBad 1).2.2 = none) :=
  ⟨(c10_theorem c2Server c10World dwGood 0 rfl).1 (by decide) (by decide),
    (c10_theorem c2Server c10World dwBad 0 rfl).2 9 [] [] rfl rfl⟩

/-- C5 witness: the amended first-`Resume` behaviour evaluated on a
concrete server whose initial wait fails. -/
theorem c5_witness :
    (Server.Resume c5Server c2World c5Oracle).result =
      some (Except.error Err.waitFailed)
    ∧ (Server.Resume c5Server c2World c5Oracle).s.procIsUp = true
    ∧ (Server.Resume c5Server c2World c5Oracle).s.breakpoints = c5Server.breakpoints
    ∧ (Server.Resume c5Server c2World c5Oracle).s.files = c5Server.files
    ∧ (Server.Resume c5Server c2World c5Oracle).w.mem = c2World.mem :=
  (c5_theorem c5Server c2World c5Resolver "re:a" c5Oracle 5).2 rfl rfl rfl

theorem peekBytes_getD (m : Mem) (a n i : Nat) (h : i < n) :
    (peekBytes m a n).getD i 0 = m (a + i) := by
  induction n generalizing a i with
  | zero => exact absurd h (Nat.not_lt_zero i)
  | succ n ih =>
    cases i with
    | zero => simp [peekBytes]
    | succ k =>
      simp only [peekBytes, List.getD_cons_succ]
      rw [ih (a + 1) k (Nat.lt_of_succ_lt_succ h)]
      congr 1
      omega

theorem covered_cons (pc : Nat) (b : breakpoint) (t : List (Nat × breakpoint))
    (size a : Nat) :
    covered ((pc, b) :: t) size a ↔ (pc ≤ a ∧ a < pc + size) ∨ covered t size a := by
  constructor
  · rintro ⟨q, bq, hmem, h1, h2⟩
    rcases List.mem_cons.1 hmem with he | he
    · obtain ⟨he1, -⟩ := Prod.mk.injEq .. ▸ he
      injection he with he1 he2
      subst he1
      exact Or.inl ⟨h1, h2⟩
    · exact Or.inr ⟨q, bq, he, h1, h2⟩
  · rintro (⟨h1, h2⟩ | ⟨q, bq, hmem, h1, h2⟩)
    · exact ⟨pc, b, List.mem_cons_self _ _, h1, h2⟩
    · exact ⟨q, bq, List.mem_cons_of_mem _ hmem, h1, h2⟩

theorem covered_nil (size a : Nat) : ¬ covered [] size a := by
  rintro ⟨q, bq, hmem, -, -⟩
  exact List.not_mem_nil _ hmem

theorem covered_append_left (l l2 : List (Nat × breakpoint)) (size a : Nat)
    (h : covered l size a) : covered (l ++ l2) size a := by
  obtain ⟨q, bq, hmem, h1, h2⟩ := h
  exact ⟨q, bq, List.mem_append_left l2 hmem, h1, h2⟩

theorem setBreakpoints_fst_outside (ar : Arch) (pid : Nat) :
    ∀ (l : List (Nat × breakpoint)) (m : Mem) (a : Nat),
    ¬ covered l ar.breakpointSize a → (setBreakpoints ar pid l m).1 a = m a := by
  intro l
  induction l with
  | nil => intro m a _; rfl
  | cons hd t ih =>
    obtain ⟨pc, b⟩ := hd
    intro m a hnc
    rw [covered_cons] at hnc
    push_neg at hnc
    obtain ⟨hhead, htail⟩ := hnc
    show (setBreakpoints ar pid t
      (pokeBytes m pc (ar.breakpointInstr.take ar.breakpointSize))).1 a = m a
    rw [ih _ a htail, pokeBytes_outside]
    have hlen : (ar.breakpointInstr.take ar.breakpointSize).length ≤ ar.breakpointSize :=
      by simpa using Nat.min_le_left _ _
    by_cases hle : pc ≤ a
    · exact Or.inr (by have := hhead hle; omega)
    · exact Or.inl (by omega)

theorem liftBreakpoints_restore (ar : Arch) (pid : Nat) (image : Mem) :
    ∀ (l : List (Nat × breakpoint)) (m : Mem),
    (∀ pc b, (pc, b) ∈ l →
      b.origInstr.take ar.breakpointSize = peekBytes image pc ar.breakpointSize) →
    (∀ a, ¬ covered l ar.breakpointSize a → m a = image a) →
    ∀ a, (liftBreakpoints ar pid l m).1 a = image a := by
  intro l
  induction l with
  | nil =>
    intro m _ h2 a
    exact h2 a (covered_nil _ a)
  | cons hd t ih =>
    obtain ⟨pc, b⟩ := hd
    intro m h1 h2 a
    have hdata : b.origInstr.take ar.breakpointSize =
        peekBytes image pc ar.breakpointSize :=
      h1 pc b (List.mem_cons_self _ _)
    show (liftBreakpoints ar pid t
      (pokeBytes m pc (b.origInstr.take ar.breakpointSize))).1 a = image a
    refine ih _ (fun q bq hq => h1 q bq (List.mem_cons_of_mem _ hq)) ?_ a
    intro x hx
    rw [hdata, pokeBytes_apply]
    rw [peekBytes_length]
    by_cases hin : pc ≤ x ∧ x < pc + ar.breakpointSize
    · rw [if_pos hin]
      rw [peekBytes_getD image pc ar.breakpointSize (x - pc) (by omega)]
      congr 1
      omega
    · rw [if_neg hin]
      refine h2 x ?_
      rw [covered_cons]
      push_neg
      exact ⟨fun hle => Nat.le_of_not_lt (fun hlt => hin ⟨hle, hlt⟩), hx⟩

theorem bpLookup_isSome_iff (l : List (Nat × breakpoint)) (pc : Nat) :
    (bpLookup l pc).isSome = true ↔ pc ∈ l.map Prod.fst := by
  induction l with
  | nil => simp [bpLookup]
  | cons hd t ih =>
    obtain ⟨p, b⟩ := hd
    by_cases hp : p = pc
    · subst hp
      simp [bpLookup]
    · simp only [bpLookup, if_neg hp, List.map_cons, List.mem_cons]
      rw [ih]
      constructor
      · exact Or.inr
      · rintro (he | he)
        · exact absurd he.symm hp
        · exact he

theorem breakpointLoop_nodup (ar : Arch) (m : Mem) (canPeek : Bool) (R : Resolver) :
    ∀ (addrs : List String) (bps : List (Nat × breakpoint)),
    (bps.map Prod.fst).Nodup →
    (((breakpointLoop ar m canPeek R addrs bps).1).map Prod.fst).Nodup := by
  intro addrs
  induction addrs with
  | nil => intro bps h; simpa [breakpointLoop] using h
  | cons a rest ih =>
    intro bps h
    cases hq : evalAddress R a with
    | error e => simpa [breakpointLoop, hq] using h
    | ok q =>
      by_cases hdup : (bpLookup bps q).isSome
      · simpa [breakpointLoop, hq, hdup] using h
      · by_cases hcp : canPeek = true
        · simp only [breakpointLoop, hq]
          rw [if_neg (by simpa using hdup), if_pos hcp]
          refine ih (bps ++ [(q, bpOrig ar m q)]) ?_
          rw [List.map_append, List.nodup_append]
          refine ⟨h, List.nodup_singleton q, ?_⟩
          intro x hx hx2
          simp only [List.map_cons, List.map_nil, List.mem_singleton] at hx2
          subst hx2
          exact hdup ((bpLookup_isSome_iff bps x).2 hx)
        · simp only [breakpointLoop, hq]
          rw [if_neg (by simpa using hdup), if_neg hcp]
          simpa using h

theorem setBreakpoints_peek (ar : Arch) (pid : Nat)
    (hwf : ar.breakpointSize ≤ ar.breakpointInstr.length) :
    ∀ (l : List (Nat × breakpoint)) (m : Mem) (pc : Nat) (b : breakpoint),
    (pc, b) ∈ l → (l.map Prod.fst).Nodup → Separated l ar.breakpointSize →
    peekBytes (setBreakpoints ar pid l m).1 pc ar.breakpointSize =
      ar.breakpointInstr.take ar.breakpointSize := by
  have hlen : (ar.breakpointInstr.take ar.breakpointSize).length = ar.breakpointSize := by
    rw [List.length_take]
    omega
  intro l
  induction l with
  | nil =>
    intro m pc b hmem
    exact absurd hmem (List.not_mem_nil _)
  | cons hd t ih =>
    obtain ⟨pc0, b0⟩ := hd
    intro m pc b hmem hnd hsep
    have hndt : (t.map Prod.fst).Nodup := (List.nodup_cons.1 (by simpa using hnd)).2
    have hsept : Separated t ar.breakpointSize := by
      intro p q hp hq hne
      exact hsep p q (by simp [hp]) (by simp [hq]) hne
    rcases List.mem_cons.1 hmem with he | he
    · injection he with he1 he2
      subst he1
      show peekBytes (setBreakpoints ar pid t
        (pokeBytes m pc (ar.breakpointInstr.take ar.breakpointSize))).1 pc
        ar.breakpointSize = ar.breakpointInstr.take ar.breakpointSize
      have hout : ∀ i, i < ar.breakpointSize →
          (setBreakpoints ar pid t
            (pokeBytes m pc (ar.breakpointInstr.take ar.breakpointSize))).1 (pc + i) =
          pokeBytes m pc (ar.breakpointInstr.take ar.breakpointSize) (pc + i) := by
        intro i hi
        refine setBreakpoints_fst_outside ar pid t _ (pc + i) ?_
        rintro ⟨q, bq, hq, hq1, hq2⟩
        have hqmem : q ∈ t.map Prod.fst := List.mem_map.2 ⟨(q, bq), hq, rfl⟩
        have hqne : q ≠ pc := by
          intro he
          subst he
          exact (List.nodup_cons.1 (by simpa using hnd)).1 hqmem
        rcases hsep q pc (by simp [hqmem]) (by simp) hqne with hc | hc <;> omega
      rw [peekBytes_congr pc ar.breakpointSize hout]
      have hpp := peekBytes_pokeBytes (ar.breakpointInstr.take ar.breakpointSize) m pc
      rw [hlen] at hpp
      exact hpp
    · exact ih _ pc b he hndt hsept

theorem resumePhase1_abort_char (s : Server) (w : World) (o : ResumeOracle)
    (out : ResumeOut) (h : resumePhase1 s w o = Phase1Res.abort out) :
    (out.s = s ∨ out.s = { s with procIsUp := true })
    ∧ (out.w = w ∨ out.w = { w with stopped := false })
    ∧ out.runningMem = none := by
  simp only [resumePhase1] at h
  split at h
  · split at h
    · obtain h1 := Phase1Res.abort.inj h
      subst h1
      exact ⟨Or.inr rfl, Or.inr rfl, rfl⟩
    · obtain h1 := Phase1Res.abort.inj h
      subst h1
      exact ⟨Or.inr rfl, Or.inr rfl, rfl⟩
    · split at h
      · obtain h1 := Phase1Res.abort.inj h
        subst h1
        exact ⟨Or.inr rfl, Or.inl rfl, rfl⟩
      · exact Phase1Res.noConfusion h
  · split at h
    · split at h
      · obtain h1 := Phase1Res.abort.inj h
        subst h1
        exact ⟨Or.inl rfl, Or.inr rfl, rfl⟩
      · obtain h1 := Phase1Res.abort.inj h
        subst h1
        exact ⟨Or.inl rfl, Or.inr rfl, rfl⟩
      · exact Phase1Res.noConfusion h
    · exact Phase1Res.noConfusion h

theorem resumeRest_preserves (P : Params) (s1 : Server) (w : World) (o : ResumeOracle)
    (evs : List WEvent) (tr1 : List TraceOp) (res : Except Err Status)
    (harch : s1.arch = P.arch)
    (h1 : ∀ pc b, (pc, b) ∈ s1.breakpoints →
      b.origInstr.take P.arch.breakpointSize = peekBytes P.image pc P.arch.breakpointSize)
    (h2 : ∀ a, ¬ covered s1.breakpoints P.arch.breakpointSize a → w.mem a = P.image a)
    (h5 : (s1.breakpoints.map Prod.fst).Nodup)
    (hres : (resumeRest s1 w o evs tr1).result = some res) :
    EngineInv P ⟨(resumeRest s1 w o evs tr1).s, (resumeRest s1 w o evs tr1).w⟩ := by
  have hset : ∀ a, ¬ covered s1.breakpoints P.arch.breakpointSize a →
      (setBreakpoints s1.arch s1.stoppedPid s1.breakpoints w.mem).1 a = P.image a := by
    intro a hnc
    rw [setBreakpoints_fst_outside s1.arch s1.stoppedPid s1.breakpoints w.mem a
      (by rw [harch]; exact hnc)]
    exact h2 a hnc
  have hlift : ∀ wpid a,
      (liftBreakpoints s1.arch wpid s1.breakpoints
        (setBreakpoints s1.arch s1.stoppedPid s1.breakpoints w.mem).1).1 a = P.image a := by
    intro wpid a
    refine liftBreakpoints_restore s1.arch wpid P.image s1.breakpoints _ ?_ ?_ a
    · intro pc b hb
      rw [harch]
      exact h1 pc b hb
    · intro x hx
      rw [harch] at hx
      exact hset x hx
  simp only [resumeRest] at hres ⊢
  cases hwt : (waitForTrap (-1) evs).2 with
  | waitFailed =>
    refine ⟨h1, ?_, ?_, harch, h5⟩
    · intro a hnc
      exact hset a hnc
    · intro hc
      exact Bool.noConfusion hc
  | exhausted =>
    rw [hwt] at hres
    exact absurd hres (by simp)
  | trapped wpid rest =>
    refine ⟨h1, ?_, ?_, harch, h5⟩
    · intro a _
      exact hlift wpid a
    · intro _ a
      exact hlift wpid a

theorem resume_preserves (P : Params) (s : Server) (w : World) (o : ResumeOracle)
    (hinv : EngineInv P ⟨s, w⟩) (res : Except Err Status)
    (hres : (Server.Resume s w o).result = some res) :
    EngineInv P ⟨(Server.Resume s w o).s, (Server.Resume s w o).w⟩ := by
  obtain ⟨h1, h2, h3, h4, h5⟩ := hinv
  cases hp : s.proc with
  | none =>
    simp only [Server.Resume, hp]
    exact ⟨h1, h2, h3, h4, h5⟩
  | some p =>
    simp only [Server.Resume, hp] at hres ⊢
    cases hph : resumePhase1 s w o with
    | abort out =>
      obtain ⟨hs, hw, -⟩ := resumePhase1_abort_char s w o out hph
      show EngineInv P ⟨out.s, out.w⟩
      rcases hs with hs | hs <;> rcases hw with hw | hw <;> rw [hs, hw]
      · exact ⟨h1, h2, h3, h4, h5⟩
      · exact ⟨h1, h2, fun hc => Bool.noConfusion hc, h4, h5⟩
      · exact ⟨h1, h2, h3, h4, h5⟩
      · exact ⟨h1, h2, fun hc => Bool.noConfusion hc, h4, h5⟩
    | go s1 evs tr1 =>
      rw [hph] at hres
      have hres1 : (resumeRest s1 w o evs tr1).result = some res := hres
      show EngineInv P ⟨(resumeRest s1 w o evs tr1).s, (resumeRest s1 w o evs tr1).w⟩
      rcases resumePhase1_go_char s w o s1 evs tr1 hph with hc | hc <;> subst hc
      · exact resumeRest_preserves P _ w o evs tr1 res h4 h1 h2 h5 hres1
      · exact resumeRest_preserves P _ w o evs tr1 res h4 h1 h2 h5 hres1

theorem breakpoint_preserves (P : Params) (s : Server) (w : World) (R : Resolver)
    (expr : String) (hinv : EngineInv P ⟨s, w⟩) :
    EngineInv P ⟨(Server.Breakpoint s w R expr).1, w⟩ := by
  obtain ⟨h1, h2, h3, h4, h5⟩ := hinv
  cases hev : eval R expr with
  | error e =>
    simp only [Server.Breakpoint, hev]
    exact ⟨h1, h2, h3, h4, h5⟩
  | ok addrs =>
    simp only [Server.Breakpoint, hev]
    obtain ⟨l2, hl2, hprop⟩ :=
      breakpointLoop_shape s.arch w.mem (s.proc.isSome && w.stopped) R addrs s.breakpoints
    have hnodup := breakpointLoop_nodup s.arch w.mem (s.proc.isSome && w.stopped) R
      addrs s.breakpoints h5
    refine ⟨?_, ?_, h3, h4, hnodup⟩
    · intro pc b hmem
      rw [hl2] at hmem
      rcases List.mem_append.1 hmem with hm | hm
      · exact h1 pc b hm
      · obtain ⟨hcp, hb, -⟩ := hprop (pc, b) hm
        have hb' : b = bpOrig s.arch w.mem pc := hb
        have h4' : s.arch = P.arch := h4
        have hstop : w.stopped = true := by
          have hcp' := hcp
          rw [Bool.and_eq_true] at hcp'
          exact hcp'.2
        have hmem_img : ∀ a, w.mem a = P.image a := h3 hstop
        rw [hb']
        show (bpOrig s.arch w.mem pc).origInstr.take P.arch.breakpointSize =
          peekBytes P.image pc P.arch.breakpointSize
        rw [← h4']
        simp only [bpOrig]
        rw [List.take_append_of_le_length (by simp [peekBytes_length])]
        rw [List.take_of_length_le (by simp [peekBytes_length])]
        exact peekBytes_congr pc s.arch.breakpointSize
          (fun i _ => hmem_img (pc + i))
    · intro a hnc
      rw [hl2] at hnc
      refine h2 a (fun hcov => hnc ?_)
      exact covered_append_left s.breakpoints l2 P.arch.breakpointSize a hcov

theorem applyCall_preserves (P : Params) (st st' : EngineState) (c : Call)
    (hinv : EngineInv P st) (h : applyCall P st c = some st') : EngineInv P st' := by
  obtain ⟨srv, world⟩ := st
  obtain ⟨h1, h2, h3, h4, h5⟩ := hinv
  cases c with
  | runCall startRes =>
    cases startRes with
    | error u =>
      obtain h' := Option.some.inj h
      subst h'
      cases hpr : srv.proc.isSome <;>
        simp only [Server.Run, hpr] <;>
        exact ⟨h1, h2, fun hc => Bool.noConfusion hc, h4, h5⟩
    | ok pid =>
      obtain h' := Option.some.inj h
      subst h'
      cases hpr : srv.proc.isSome <;>
        simp only [Server.Run, hpr] <;>
        exact ⟨h1, fun a _ => rfl, fun _ a => rfl, h4, h5⟩
  | resumeCall o =>
    simp only [applyCall] at h
    cases hr : (Server.Resume srv world o).result with
    | none => rw [hr] at h; exact absurd h (by simp)
    | some res =>
      rw [hr] at h
      obtain h' := Option.some.inj h
      subst h'
      exact resume_preserves P srv world o ⟨h1, h2, h3, h4, h5⟩ res hr
  | breakpointCall R expr =>
    obtain h' := Option.some.inj h
    subst h'
    exact breakpoint_preserves P srv world R expr ⟨h1, h2, h3, h4, h5⟩
  | evalCall R expr =>
    obtain h' := Option.some.inj h
    subst h'
    exact ⟨h1, h2, h3, h4, h5⟩
  | framesCall dw count =>
    simp only [applyCall] at h
    cases hr : (Server.Frames srv world dw count).2.2 with
    | none => rw [hr] at h; exact absurd h (by simp)
    | some res =>
      rw [hr] at h
      obtain h' := Option.some.inj h
      subst h'
      have hs := (c8_theorem srv world
        { lookupRE := fun _ => Except.error Err.lookupFailed
          lookupSym := fun _ => Except.error Err.lookupFailed
          lookupSource := fun _ => none
          lookupPC := fun _ => Except.error Err.lookupFailed
          parseUint := fun _ => Except.error Err.lookupFailed } "" dw count)
      rw [hs.2.2.1, hs.2.2.2]
      exact ⟨h1, h2, h3, h4, h5⟩

theorem initState_inv (P : Params) : EngineInv P (initState P) := by
  refine ⟨?_, ?_, ?_, rfl, ?_⟩
  · intro pc b hmem
    exact absurd hmem (List.not_mem_nil _)
  · intro a _
    rfl
  · intro _ a
    rfl
  · simp [initState]

theorem foldl_bind_none (calls : List Call) (P : Params) :
    calls.foldl (fun acc c => acc.bind fun st => applyCall P st c) none = none := by
  induction calls with
  | nil => rfl
  | cons c rest ih => simpa using ih

theorem reach_inv (P : Params) (calls : List Call) (st : EngineState)
    (h : reach P calls = some st) : EngineInv P st := by
  suffices aux : ∀ (cs : List Call) (st0 : EngineState), EngineInv P st0 →
      cs.foldl (fun acc c => acc.bind fun s => applyCall P s c) (some st0) = some st →
      EngineInv P st from
    aux calls (initState P) (initState_inv P) h
  intro cs
  induction cs with
  | nil =>
    intro st0 h0 hf
    obtain hf' := Option.some.inj hf
    subst hf'
    exact h0
  | cons c rest ih =>
    intro st0 h0 hf
    simp only [List.foldl_cons, Option.some_bind] at hf
    cases happly : applyCall P st0 c with
    | none =>
      rw [happly] at hf
      rw [foldl_bind_none] at hf
      exact Option.noConfusion hf
    | some st1 =>
      rw [happly] at hf
      exact ih st1 (applyCall_preserves P st0 st1 c h0 happly) hf

theorem resume_runningMem (s : Server) (w : World) (o : ResumeOracle) (rm : Mem)
    (h : (Server.Resume s w o).runningMem = some rm) :
    rm = (setBreakpoints s.arch s.stoppedPid s.breakpoints w.mem).1 := by
  cases hp : s.proc with
  | none =>
    simp [Server.Resume, hp] at h
  | some p =>
    simp only [Server.Resume, hp] at h
    cases hph : resumePhase1 s w o with
    | abort out =>
      rw [hph] at h
      obtain ⟨-, -, hrm⟩ := resumePhase1_abort_char s w o out hph
      have h' : out.runningMem = some rm := h
      rw [hrm] at h'
      exact Option.noConfusion h'
    | go s1 evs tr1 =>
      rw [hph] at h
      have h' : (resumeRest s1 w o evs tr1).runningMem = some rm := h
      have hfield : s1.arch = s.arch ∧ s1.stoppedPid = s.stoppedPid
          ∧ s1.breakpoints = s.breakpoints := by
        rcases resumePhase1_go_char s w o s1 evs tr1 hph with hc | hc <;> subst hc <;>
          exact ⟨rfl, rfl, rfl⟩
      simp only [resumeRest] at h'
      obtain ⟨hf1, hf2, hf3⟩ := hfield
      cases hwt : (waitForTrap (-1) evs).2 with
      | waitFailed =>
        rw [hwt] at h'
        obtain h'' := Option.some.inj h'
        rw [← h'', hf1, hf2, hf3]
      | exhausted =>
        rw [hwt] at h'
        obtain h'' := Option.some.inj h'
        rw [← h'', hf1, hf2, hf3]
      | trapped wpid rest =>
        rw [hwt] at h'
        obtain h'' := Option.some.inj h'
        rw [← h'', hf1, hf2, hf3]

/-- C1 (amended): in every reachable engine state, (I1) while the
debuggee is stopped and a handler has returned, the code memory at
every pc of the breakpoint table holds that entry's saved original
instruction bytes, for any architecture; (I2) while the debuggee runs
(between the continue and the stop-producing wait inside `Resume`),
the code at every pc of the table holds the breakpoint instruction
provided the table's pcs are pairwise at least `breakpointSize` apart
(automatic for one-byte breakpoint instructions such as x86's). -/
theorem c1_theorem (P : Params) (calls : List Call) (st : EngineState)
    (hwf : P.arch.WF) (h : reach P calls = some st) :
    (st.world.stopped = true → ∀ pc b, (pc, b) ∈ st.srv.breakpoints →
      peekBytes st.world.mem pc P.arch.breakpointSize =
        b.origInstr.take P.arch.breakpointSize)
    ∧ (∀ (o : ResumeOracle) (rm : Mem),
        (Server.Resume st.srv st.world o).runningMem = some rm →
        Separated st.srv.breakpoints P.arch.breakpointSize →
        ∀ pc b, (pc, b) ∈ st.srv.breakpoints →
          peekBytes rm pc P.arch.breakpointSize =
            P.arch.breakpointInstr.take P.arch.breakpointSize) := by
  obtain ⟨h1, h2, h3, h4, h5⟩ := reach_inv P calls st h
  constructor
  · intro hstop pc b hmem
    rw [h1 pc b hmem]
    exact peekBytes_congr pc P.arch.breakpointSize (fun i _ => h3 hstop (pc + i))
  · intro o rm hrm hsep pc b hmem
    rw [resume_runningMem st.srv st.world o rm hrm, h4]
    have hle : P.arch.breakpointSize ≤ P.arch.breakpointInstr.length := by
      rw [hwf.1]
      exact hwf.2
    exact setBreakpoints_peek P.arch st.srv.stoppedPid hle st.srv.breakpoints
      st.world.mem pc b hmem h5 hsep

/-- C1 counterexample: on the ARM-style 4-byte breakpoint instruction,
after `Run` and a `Breakpoint` request at the overlapping addresses 100
and 101, the running memory of the next `Resume` at pc 100 reads
`[112, 112, 0, 32]`, not the breakpoint instruction `[112, 0, 32, 225]`
— the claim's I2 fails on reachable states with overlapping patch
ranges. -/
theorem c1_counterexample :
    ((reach cexParams cexCalls).bind fun st =>
      (Server.Resume st.srv st.world cexOracle).runningMem.map fun rm =>
        peekBytes rm 100 cexParams.arch.breakpointSize) = some [112, 112, 0, 32]
    ∧ cexParams.arch.breakpointInstr.take cexParams.arch.breakpointSize =
        [112, 0, 32, 225]
    ∧ ((reach cexParams cexCalls).map fun st =>
        (bpLookup st.srv.breakpoints 100).isSome && st.world.stopped) = some true
    ∧ ([112, 112, 0, 32] : List Nat) ≠ [112, 0, 32, 225] := by
  refine ⟨by decide, by decide, by decide, by decide⟩

/-- C1 witness: the amended invariant evaluated on the x86-64-style
session after `Run` and one `Breakpoint` at 4096. -/
theorem c1_witness :
    ∃ st, reach wParams wCalls = some st
      ∧ (st.world.stopped = true → ∀ pc b, (pc, b) ∈ st.srv.breakpoints →
          peekBytes st.world.mem pc wParams.arch.breakpointSize =
            b.origInstr.take wParams.arch.breakpointSize)
      ∧ (∀ (o : ResumeOracle) (rm : Mem),
          (Server.Resume st.srv st.world o).runningMem = some rm →
          Separated st.srv.breakpoints wParams.arch.breakpointSize →
          ∀ pc b, (pc, b) ∈ st.srv.breakpoints →
            peekBytes rm pc wParams.arch.breakpointSize =
              wParams.arch.breakpointInstr.take wParams.arch.breakpointSize) :=
  ⟨_, rfl, c1_theorem wParams wCalls _ ⟨rfl, by decide⟩ rfl⟩
